import Mathlib

/-! The queue of identifiers, the workers and the pool of hacker-news.

Embedding of `src/hacker-news/main.cxx`: `IdCollection` (a mutex-guarded stack of
identifiers), `Worker::run` (pop, fetch, parse, print) and `Application::main`
(fetch the listing, start the workers, join them).

The program talks to the network and to the Poco JSON library.  Neither is part of
the repository, so a response is represented by what those calls report about it:
whether `InvokeWebRequest` raises, whether `parser.parse` raises, and what
`isArray`, `size`, `extract`, `convert` and `getValue` answer on the parsed value.
Only for the elements of the listing is the library's conversion itself spelled out, in
`Element.convert`, to tell an element that is an unsigned integer from one that merely
converts to one.
An identifier is an `unsigned int`; no arithmetic is done on identifiers, so they
are natural numbers here.
-/

namespace HackerNews

/-! ## Responses -/

/-- The object of an item response, seen through the two `getValue` calls of
`Worker::run`; `none` stands for a call that raises (as on a missing key). -/
structure JsonObject where
  /-- Result of `object->getValue<unsigned int>("id")`. -/
  id : Option Nat
  /-- Result of `object->getValue<std::string>("title")`. -/
  title : Option String
deriving DecidableEq, Repr

/-- A parsed value (`Poco::Dynamic::Var objects`), seen through the calls the
program makes on it. -/
structure Var where
  /-- Result of `objects.isArray()`. -/
  isArray : Bool
  /-- Result of `objects.size()`. -/
  size : Nat
  /-- Result of `objects[0].extract<Poco::JSON::Array::Ptr>()` (`none`: raises); each
  element is the result of `item.convert(id)` on it (`none`: raises). -/
  array : Option (List (Option Nat))
  /-- Result of `objects[0].extract<Poco::JSON::Object::Ptr>()` (`none`: raises). -/
  object : Option JsonObject
deriving DecidableEq, Repr

/-- A response text, represented by the result of `parser.parse` on it
(`none`: the parser raises). -/
structure Body where
  parse : Option Var
deriving DecidableEq, Repr

/-- Exceptions that leave a function of the program. -/
inductive Exception
  /-- The `Poco::InvalidArgumentException` thrown by the constructor of `IdCollection`. -/
  | invalidArgument (msg : String)
  /-- Any exception raised inside a network or JSON library call. -/
  | library
deriving DecidableEq, Repr

/-- The outside world of one run: the answers of `InvokeWebRequest` and the thread
identifiers.  `none` stands for a request that raises (timeout, refused connection,
TLS failure). -/
structure World where
  /-- Answer to the request for the listing. -/
  topstories : Option Body
  /-- Answer to an item request, which may depend on how many item requests were
  made before it, on the worker that makes it and on the identifier asked for. -/
  item : Nat → Nat → Nat → Option Body
  /-- Value of `Poco::Thread::currentTid()` inside each worker. -/
  tid : Nat → Nat

/-! ## IdCollection -/

/-- The stack `ids_`, top first.  The mutex is rendered by `Next` being one step. -/
structure IdCollection where
  ids_ : List Nat
deriving DecidableEq, Repr

/-- The loop of the constructor: convert each item in turn and push it; the first
conversion that raises ends the construction. -/
def IdCollection.pushAll : List (Option Nat) → List Nat → Except Exception (List Nat)
  | [], ids => .ok ids
  | none :: _, _ => .error .library
  | some id :: rest, ids => IdCollection.pushAll rest (id :: ids)

/-- Constructor `IdCollection::IdCollection(const std::string &json)`. -/
def IdCollection.new (json : Body) : Except Exception IdCollection :=
  match json.parse with
  | none => .error .library
  | some objects =>
    if !objects.isArray || objects.size != 1 then
      .error (.invalidArgument "Expecting one JSON array")
    else
      match objects.array with
      | none => .error .library
      | some jsonArray =>
        match IdCollection.pushAll jsonArray [] with
        | .error e => .error e
        | .ok ids => .ok ⟨ids⟩

/-- Method `bool IdCollection::Next(unsigned int &id)`: `some id` is a return of `true`
with `id` stored, `none` a return of `false` with the argument untouched. -/
def IdCollection.Next (c : IdCollection) : Option Nat × IdCollection :=
  match c.ids_ with
  | [] => (none, c)
  | top :: rest => (some top, ⟨rest⟩)

/-- Results of `n` successive calls of `Next`, in call order, and the collection left. -/
def IdCollection.nextN : Nat → IdCollection → List (Option Nat) × IdCollection
  | 0, c => ([], c)
  | n + 1, c =>
    let r := c.Next
    let rs := IdCollection.nextN n r.2
    (r.1 :: rs.1, rs.2)

/-- A listing response that is one JSON array of the unsigned integers `listing`. -/
def listingBody (listing : List Nat) : Body :=
  ⟨some ⟨true, 1, some (listing.map some), none⟩⟩

/-! ## Worker -/

/-- One line of standard output: the three values inserted by line 167. -/
structure SuccessLine where
  story_id : Nat
  story_title : String
  tid : Nat
deriving DecidableEq, Repr

/-- Text of a line, without the final newline. -/
def SuccessLine.text (l : SuccessLine) : String :=
  Nat.repr l.story_id ++ " : " ++ l.story_title ++ " (TID " ++ Nat.repr l.tid ++ ")"

/-- The diagnostic of line 160. -/
def diagnosticText : String := "Expecting one object from item"

/-- How one pass through the body of the loop of `Worker::run` ends. -/
inductive Outcome
  /-- Line 167 is reached and the line is written; the loop goes on. -/
  | line (l : SuccessLine)
  /-- The size test fails: the diagnostic is written and `run` returns. -/
  | diagnostic
  /-- An exception leaves `run`. -/
  | raised
deriving DecidableEq, Repr

/-- Body of the loop of `Worker::run`, lines 140 to 167, on the answer to the
request it makes. -/
def Worker.body (response : Option Body) (tid : Nat) : Outcome :=
  match response with
  | none => .raised
  | some text =>
    match text.parse with
    | none => .raised
    | some objects =>
      if objects.size != 1 then .diagnostic
      else
        match objects.object with
        | none => .raised
        | some object =>
          match object.id with
          | none => .raised
          | some story_id =>
            match object.title with
            | none => .raised
            | some story_title => .line ⟨story_id, story_title, tid⟩

/-- Where a worker stands in `Worker::run`. -/
inductive WorkerState
  /-- At the head of the loop, about to call `Next`. -/
  | ready
  /-- `Next` returned `true` with `id`; the body of the loop has not run yet. -/
  | holding (id : Nat)
  /-- `Next` returned `false` and `run` returned. -/
  | finished
  /-- The diagnostic was written while processing `id` and `run` returned. -/
  | diagnosed (id : Nat)
  /-- An exception left `run` while processing `id`.  It ends this worker only: the
  thread of the pool that runs the worker does not pass it on. -/
  | raised (id : Nat)
deriving DecidableEq, Repr

/-- The worker has left `run`. -/
def WorkerState.terminated : WorkerState → Bool
  | .ready => false
  | .holding _ => false
  | _ => true

/-! ## The pool -/

/-- State of a running pool.  `calls` and `requests` record what has happened: the
results of the calls of `Next` with the calling worker, and the identifiers passed
to `InvokeWebRequest`, both in the order of occurrence.  A line of standard output is
recorded in `cout` when the insertions of line 167 have all been made; how its pieces
fall among the pieces of other workers on the stream is not part of this state, it is
followed insertion by insertion in `Output`. -/
structure Pool where
  collection : IdCollection
  workers : List WorkerState
  cout : List SuccessLine
  cerr : List String
  calls : List (Nat × Option Nat)
  requests : List Nat
deriving DecidableEq, Repr

/-- The pool just after the `n` workers were created on `collection`. -/
def Pool.start (collection : IdCollection) (n : Nat) : Pool :=
  ⟨collection, List.replicate n .ready, [], [], [], []⟩

/-- One step of worker `w`: either its call of `Next` (atomic, under the mutex) or
the rest of the loop body for the identifier it holds.  A worker that has left
`run`, or an index that names no worker, changes nothing. -/
def Pool.step (W : World) (s : Pool) (w : Nat) : Pool :=
  match s.workers[w]? with
  | some .ready =>
    match s.collection.Next with
    | (some id, c) =>
      { s with collection := c, workers := s.workers.set w (.holding id),
               calls := s.calls ++ [(w, some id)] }
    | (none, c) =>
      { s with collection := c, workers := s.workers.set w .finished,
               calls := s.calls ++ [(w, none)] }
  | some (.holding id) =>
    match Worker.body (W.item s.requests.length w id) (W.tid w) with
    | .line l =>
      { s with workers := s.workers.set w .ready, cout := s.cout ++ [l],
               requests := s.requests ++ [id] }
    | .diagnostic =>
      { s with workers := s.workers.set w (.diagnosed id),
               cerr := s.cerr ++ [diagnosticText], requests := s.requests ++ [id] }
    | .raised =>
      { s with workers := s.workers.set w (.raised id), requests := s.requests ++ [id] }
  | _ => s

/-- The pool after the steps of a schedule, a list of worker indices.  Every
interleaving of the threads is such a schedule: the mutex makes each call of `Next` one
step, and between two calls of `Next` a worker touches only its own variables and
appends to the two streams.  The workers all stand at the head of their loop from the
start, so the schedules include those in which a worker runs while `main` is still
starting the others. -/
def Pool.run (W : World) (s : Pool) (schedule : List Nat) : Pool :=
  schedule.foldl (Pool.step W) s

/-- Every worker has left `run`: `joinAll` returns. -/
def Pool.allTerminated (s : Pool) : Bool :=
  s.workers.all WorkerState.terminated

/-- Identifiers handed out by the calls of `Next` so far, in call order. -/
def Pool.popped (s : Pool) : List Nat :=
  s.calls.filterMap Prod.snd

/-- The identifier a worker holds between its pop and the end of the loop body. -/
def WorkerState.heldId : WorkerState → Option Nat
  | .holding id => some id
  | _ => none

/-- The identifier a worker was processing when it wrote the diagnostic. -/
def WorkerState.diagnosedId : WorkerState → Option Nat
  | .diagnosed id => some id
  | _ => none

/-- The identifier a worker was processing when an exception left `run`. -/
def WorkerState.lostId : WorkerState → Option Nat
  | .raised id => some id
  | _ => none

/-- Identifiers popped and not yet processed. -/
def Pool.held (s : Pool) : List Nat :=
  s.workers.filterMap WorkerState.heldId

/-- Identifiers whose processing ended with the diagnostic. -/
def Pool.diagnosed (s : Pool) : List Nat :=
  s.workers.filterMap WorkerState.diagnosedId

/-- Identifiers whose processing ended with an exception. -/
def Pool.lost (s : Pool) : List Nat :=
  s.workers.filterMap WorkerState.lostId

/-! ## Application -/

/-- How far `Application::main` got. -/
inductive MainResult
  /-- An exception left `main` before any worker was created. -/
  | raised (e : Exception)
  /-- The workers were started and `main` waits in `joinAll`. -/
  | joining (s : Pool)
  /-- `joinAll` returned and `main` returned `code`. -/
  | returned (code : Int) (s : Pool)
deriving DecidableEq, Repr

/-- Function `Application::main` with the loop bound `n` in place of the constant 8,
under a schedule of the workers' steps. -/
def Application.mainWith (n : Nat) (W : World) (schedule : List Nat) : MainResult :=
  match W.topstories with
  | none => .raised .library
  | some response =>
    match IdCollection.new response with
    | .error e => .raised e
    | .ok collection =>
      let s := (Pool.start collection n).run W schedule
      if s.allTerminated then .returned 0 s else .joining s

/-- Function `Application::main`: eight workers. -/
def Application.main (W : World) (schedule : List Nat) : MainResult :=
  Application.mainWith 8 W schedule

/-! ## Observations on a run -/

/-- The pool of a run of `main`, when the workers were started. -/
def MainResult.pool : MainResult → Option Pool
  | .raised _ => none
  | .joining s => some s
  | .returned _ s => some s

/-- Results of the calls of `Next` made by worker `w` so far, in call order. -/
def Pool.callsOf (s : Pool) (w : Nat) : List (Option Nat) :=
  (s.calls.filter (fun c => c.1 == w)).map Prod.snd

/-! ## Properties of responses -/

/-- The response text `json` is one JSON array whose elements convert to `listing`. -/
def Body.lists (json : Body) (listing : List Nat) : Prop :=
  ∃ v, json.parse = some v ∧ v.isArray = true ∧ v.size = 1 ∧ v.array = some (listing.map some)

/-- The answer `r` to an item request is well formed and carries the identifier `id`
and a title: the request returns, the text parses to one object, and both fields are
obtained. -/
def Carries (r : Option Body) (id : Nat) : Prop :=
  ∃ v t, r = some ⟨some v⟩ ∧ v.size = 1 ∧ v.object = some ⟨some id, some t⟩

/-- The answer `r` to an item request is well formed, whatever identifier it carries. -/
def Succeeds (r : Option Body) : Prop :=
  ∃ id, Carries r id

/-- The listing request of the world `W` is answered by one JSON array whose
elements convert to `listing`. -/
def World.lists (W : World) (listing : List Nat) : Prop :=
  ∃ json, W.topstories = some json ∧ json.lists listing

/-- Every well-formed answer to an item request carries the identifier asked for. -/
def World.echoes (W : World) : Prop :=
  ∀ k w id i, Carries (W.item k w id) i → i = id

/-! ## Invariants -/

/-- Facts true of every state a pool of `n` workers reaches from the stack `ids0`. -/
structure Pool.Inv (ids0 : List Nat) (n : Nat) (s : Pool) : Prop where
  stack : s.popped ++ s.collection.ids_ = ids0
  perm : (s.requests ++ s.held).Perm s.popped
  drained : WorkerState.finished ∈ s.workers → s.collection.ids_ = []
  count : s.requests.length = s.cout.length + s.diagnosed.length + s.lost.length
  cerr_eq : s.cerr = List.replicate s.diagnosed.length diagnosticText
  size : s.workers.length = n
  results : ∃ m, s.calls.map Prod.snd = s.popped.map some ++ List.replicate m none ∧
    (0 < m → s.collection.ids_ = [])

/-- The line of an outcome, if it has one. -/
def Outcome.lineOf : Outcome → Option SuccessLine
  | .line l => some l
  | _ => none

/-- The identifier of a processed request that ended with the diagnostic. -/
def diagnosedOf (p : Nat × Outcome) : Option Nat :=
  if p.2 = .diagnostic then some p.1 else none

/-- The identifier of a processed request that ended with an exception. -/
def lostOf (p : Nat × Outcome) : Option Nat :=
  if p.2 = .raised then some p.1 else none

/-- The state `s` is accounted for by `log`, the requests made so far with the way
the loop body ended on each. -/
structure Pool.Logged (W : World) (s : Pool) (log : List (Nat × Outcome)) : Prop where
  requests_eq : s.requests = log.map Prod.fst
  cout_eq : s.cout = log.filterMap (fun p => p.2.lineOf)
  diagnosed_perm : s.diagnosed.Perm (log.filterMap diagnosedOf)
  lost_perm : s.lost.Perm (log.filterMap lostOf)
  answered : ∀ p ∈ log, ∃ k w, p.2 = Worker.body (W.item k w p.1) (W.tid w)

/-! ## A measure for termination -/

/-- A bound on the number of steps worker `w` can still take when it runs alone. -/
def Pool.fuel (s : Pool) (w : Nat) : Nat :=
  match s.workers[w]? with
  | some .ready => 2 * s.collection.ids_.length + 1
  | some (.holding _) => 2 * s.collection.ids_.length + 2
  | _ => 0

/-- A schedule that lets each of the workers `0, ..., n - 1` in turn take `2 * k + 2`
steps, enough for it to leave `run` when at most `k` identifiers are in the queue. -/
def Pool.drain : Nat → Nat → List Nat
  | 0, _ => []
  | n + 1, k => Pool.drain n k ++ List.replicate (2 * k + 2) n

/-! ## Elements of the listing and their conversion -/

/-- An element of a JSON array as the parser hands it to the program. -/
inductive Element
  /-- The integer `n`, not negative. -/
  | unsigned (n : Nat)
  /-- The negative integer `-(n + 1)`. -/
  | negative (n : Nat)
  /-- A number that is not negative and has a fractional part, with whole part `whole`. -/
  | fraction (whole : Nat)
  /-- A string made of the decimal digits of `n`, such as "3". -/
  | numeral (n : Nat)
  /-- A string in which no number is written, such as "abc". -/
  | word
  /-- The value `true` or `false`. -/
  | boolean (b : Bool)
  /-- The value `null`. -/
  | null
  /-- An array or an object. -/
  | nested
deriving DecidableEq, Repr

/-- Result of `item.convert(id)` for the `unsigned int id` of line 104 (`none`: raises).
The call is `Poco::Dynamic::Var::convert`, which is not part of the repository: it
converts whatever value it holds to the type asked for, with a range check.  An integer
or a numeral string in the range of `unsigned int` gives its value, a fraction gives
its whole part, a boolean gives 1 or 0; a negative number, a value out of range, a
string with no number, `null`, an array and an object make it raise. -/
def Element.convert : Element → Option Nat
  | .unsigned n => if n < 4294967296 then some n else none
  | .negative _ => none
  | .fraction whole => if whole < 4294967296 then some whole else none
  | .numeral n => if n < 4294967296 then some n else none
  | .word => none
  | .boolean b => some (if b then 1 else 0)
  | .null => none
  | .nested => none

/-- A response text that is one JSON array with the elements `items`. -/
def arrayBody (items : List Element) : Body :=
  ⟨some ⟨true, 1, some (items.map Element.convert), none⟩⟩

/-! ## Worlds used in the examples -/

/-- A well-formed item response carrying `id` and `title`. -/
def itemBody (id : Nat) (title : String) : Body :=
  ⟨some ⟨false, 1, none, some ⟨some id, some title⟩⟩⟩

/-- A world in which the listing is `listing`, every item request is answered with
the identifier asked for and the title "t", and worker `w` runs in thread `100 + w`. -/
def World.echo (listing : List Nat) : World :=
  ⟨some (listingBody listing), fun _ _ id => some (itemBody id "t"), fun w => 100 + w⟩

/-- A world in which the listing is `listing`, every item request for an identifier of
`bad` times out, every other item request is answered with the identifier asked for
and the title "t", and worker `w` runs in thread `100 + w`. -/
def World.timeouts (listing bad : List Nat) : World :=
  ⟨some (listingBody listing),
   fun _ _ id => if id ∈ bad then none else some (itemBody id "t"),
   fun w => 100 + w⟩

/-- A world in which the listing is `listing` and every item request is answered by
one object that has the identifier asked for and no title, so that the `getValue` call
for the title raises. -/
def World.untitled (listing : List Nat) : World :=
  ⟨some (listingBody listing),
   fun _ _ id => some ⟨some ⟨false, 1, none, some ⟨some id, none⟩⟩⟩,
   fun w => 100 + w⟩

/-- A world in which the listing is `listing` and every item request is answered by a
well-formed response that carries the identifier after the one asked for. -/
def World.shifted (listing : List Nat) : World :=
  ⟨some (listingBody listing), fun _ _ id => some (itemBody (id + 1) "x"), fun w => 100 + w⟩

/-! ## Standard output, insertion by insertion -/

/-- The pieces that line 167 inserts into `std::cout`, one for each `<<`, in order;
the last one is `std::endl`. -/
def SuccessLine.pieces (l : SuccessLine) : List String :=
  [Nat.repr l.story_id, " : ", l.story_title, " (TID ", Nat.repr l.tid, ")", "\n"]

/-- Standard output while workers execute line 167: for each worker the pieces it has
yet to insert, and the pieces inserted so far, each with the worker that inserted it.
Line 167 holds no lock, so any worker with a piece left may insert next. -/
structure Output where
  pending : List (List String)
  stream : List (Nat × String)
deriving DecidableEq, Repr

/-- Workers `0, 1, ...` reach line 167 with the lines `lines`. -/
def Output.start (lines : List SuccessLine) : Output :=
  ⟨lines.map SuccessLine.pieces, []⟩

/-- Worker `w` makes its next insertion. -/
def Output.step (o : Output) (w : Nat) : Output :=
  match o.pending[w]? with
  | some (piece :: rest) => ⟨o.pending.set w rest, o.stream ++ [(w, piece)]⟩
  | _ => o

/-- The output after the insertions of a schedule, a list of worker indices. -/
def Output.run (o : Output) (schedule : List Nat) : Output :=
  schedule.foldl Output.step o

/-- The characters on standard output. -/
def Output.text (o : Output) : String :=
  String.join (o.stream.map Prod.snd)

/-- A list of worker indices with each run of equal neighbours reduced to one. -/
def runHeads : List Nat → List Nat
  | [] => []
  | [a] => [a]
  | a :: b :: rest => if a = b then runHeads (b :: rest) else a :: runHeads (b :: rest)

/-- No line is cut by another: the pieces of each worker stand together in the
stream. -/
def Output.intact (o : Output) : Bool :=
  (runHeads (o.stream.map Prod.fst)).Nodup

theorem getElem?_split {α : Type} {l : List α} {w : Nat} {y : α} (h : l[w]? = some y)
    (x : α) : ∃ l1 l2, l = l1 ++ y :: l2 ∧ l1.length = w ∧ l.set w x = l1 ++ x :: l2 := by
  induction l generalizing w with
  | nil => simp at h
  | cons a t ih =>
    cases w with
    | zero =>
      simp at h
      exact ⟨[], t, by simp [h], rfl, by simp⟩
    | succ k =>
      simp at h
      obtain ⟨l1, l2, h1, h2, h3⟩ := ih h
      exact ⟨a :: l1, l2, by simp [h1], by simp [h2], by simp [h3]⟩

/-- Case analysis of one step: a property holds after the step as soon as it holds
in each of the six ways the step can go. -/
theorem Pool.step_cases (W : World) (s : Pool) (w : Nat) (P : Pool → Prop)
    (stay : P s)
    (pop : ∀ l1 l2 id rest, s.workers = l1 ++ .ready :: l2 → l1.length = w →
      s.collection.ids_ = id :: rest →
      P { s with collection := ⟨rest⟩, workers := l1 ++ .holding id :: l2,
                 calls := s.calls ++ [(w, some id)] })
    (empty : ∀ l1 l2, s.workers = l1 ++ .ready :: l2 → l1.length = w →
      s.collection.ids_ = [] →
      P { s with workers := l1 ++ .finished :: l2, calls := s.calls ++ [(w, none)] })
    (line : ∀ l1 l2 id l, s.workers = l1 ++ .holding id :: l2 → l1.length = w →
      Worker.body (W.item s.requests.length w id) (W.tid w) = .line l →
      P { s with workers := l1 ++ .ready :: l2, cout := s.cout ++ [l],
                 requests := s.requests ++ [id] })
    (diag : ∀ l1 l2 id, s.workers = l1 ++ .holding id :: l2 → l1.length = w →
      Worker.body (W.item s.requests.length w id) (W.tid w) = .diagnostic →
      P { s with workers := l1 ++ .diagnosed id :: l2,
                 cerr := s.cerr ++ [diagnosticText], requests := s.requests ++ [id] })
    (raise : ∀ l1 l2 id, s.workers = l1 ++ .holding id :: l2 → l1.length = w →
      Worker.body (W.item s.requests.length w id) (W.tid w) = .raised →
      P { s with workers := l1 ++ .raised id :: l2, requests := s.requests ++ [id] }) :
    P (s.step W w) := by
  unfold Pool.step
  split
  · next hw =>
    cases hc : s.collection.ids_ with
    | nil =>
      obtain ⟨l1, l2, h1, h2, h3⟩ := getElem?_split hw .finished
      have := empty l1 l2 h1 h2 hc
      simpa [IdCollection.Next, hc, h3] using this
    | cons id rest =>
      obtain ⟨l1, l2, h1, h2, h3⟩ := getElem?_split hw (.holding id)
      have := pop l1 l2 id rest h1 h2 hc
      simpa [IdCollection.Next, hc, h3] using this
  · next id hw =>
    split
    · next l hb =>
      obtain ⟨l1, l2, h1, h2, h3⟩ := getElem?_split hw .ready
      simpa [h3] using line l1 l2 id l h1 h2 hb
    · next hb =>
      obtain ⟨l1, l2, h1, h2, h3⟩ := getElem?_split hw (.diagnosed id)
      simpa [h3] using diag l1 l2 id h1 h2 hb
    · next hb =>
      obtain ⟨l1, l2, h1, h2, h3⟩ := getElem?_split hw (.raised id)
      simpa [h3] using raise l1 l2 id h1 h2 hb
  · exact stay

/-! ## Invariants of the pool -/
theorem Pool.inv_start (ids0 : List Nat) (n : Nat) : (Pool.start ⟨ids0⟩ n).Inv ids0 n := by
  refine ⟨by simp [Pool.start, Pool.popped], ?_, ?_, ?_, ?_, by simp [Pool.start], ⟨0,
      by simp [Pool.start, Pool.popped]⟩⟩
  · have : List.filterMap WorkerState.heldId (List.replicate n WorkerState.ready) = [] := by
      induction n with
      | zero => rfl
      | succ k ih => simp [List.replicate_succ, WorkerState.heldId, ih]
    simp [Pool.start, Pool.popped, Pool.held, this]
  · simp [Pool.start]
  · have h1 : List.filterMap WorkerState.diagnosedId (List.replicate n WorkerState.ready) = [] := by
      induction n with
      | zero => rfl
      | succ k ih => simp [List.replicate_succ, WorkerState.diagnosedId, ih]
    have h2 : List.filterMap WorkerState.lostId (List.replicate n WorkerState.ready) = [] := by
      induction n with
      | zero => rfl
      | succ k ih => simp [List.replicate_succ, WorkerState.lostId, ih]
    simp [Pool.start, Pool.diagnosed, Pool.lost, h1, h2]
  · have h1 : List.filterMap WorkerState.diagnosedId (List.replicate n WorkerState.ready) = [] := by
      induction n with
      | zero => rfl
      | succ k ih => simp [List.replicate_succ, WorkerState.diagnosedId, ih]
    simp [Pool.start, Pool.diagnosed, h1]

theorem Pool.inv_step {ids0 : List Nat} {n : Nat} {s : Pool} (h : s.Inv ids0 n)
    (W : World) (w : Nat) : (s.step W w).Inv ids0 n := by
  obtain ⟨h1, h2, h3, h4, h5, h6, m, h7, h8⟩ := h
  apply Pool.step_cases W s w (Pool.Inv ids0 n)
  · exact ⟨h1, h2, h3, h4, h5, h6, m, h7, h8⟩
  · intro l1 l2 id rest hw _ hc
    have hm : m = 0 := by
      by_contra hne
      have := h8 (Nat.pos_of_ne_zero hne)
      simp [hc] at this
    subst hm
    refine ⟨?_, ?_, ?_, ?_, ?_, ?_, 0, ?_, ?_⟩
    · simpa [Pool.popped, Pool.held, Pool.diagnosed, Pool.lost, List.filterMap_append,
        WorkerState.heldId, WorkerState.diagnosedId, WorkerState.lostId, hw, hc] using h1
    · rw [List.perm_iff_count] at h2 ⊢
      intro a
      have := h2 a
      simp [Pool.popped, Pool.held, Pool.diagnosed, Pool.lost, List.filterMap_append,
          WorkerState.heldId, WorkerState.diagnosedId, WorkerState.lostId, hw, hc,
          List.count_append, List.count_cons] at this ⊢
      omega
    · intro hf
      have := h3 (by simpa [hw] using hf)
      simp [hc] at this
    · simpa [Pool.popped, Pool.held, Pool.diagnosed, Pool.lost, List.filterMap_append,
        WorkerState.heldId, WorkerState.diagnosedId, WorkerState.lostId, hw, hc] using h4
    · simpa [Pool.popped, Pool.held, Pool.diagnosed, Pool.lost, List.filterMap_append,
        WorkerState.heldId, WorkerState.diagnosedId, WorkerState.lostId, hw, hc] using h5
    · simpa [Pool.popped, Pool.held, Pool.diagnosed, Pool.lost, List.filterMap_append,
        WorkerState.heldId, WorkerState.diagnosedId, WorkerState.lostId, hw, hc] using h6
    · simpa [Pool.popped, Pool.held, Pool.diagnosed, Pool.lost, List.filterMap_append,
        WorkerState.heldId, WorkerState.diagnosedId, WorkerState.lostId, hw, hc] using h7
    · simp
  · intro l1 l2 hw _ hc
    refine ⟨?_, ?_, ?_, ?_, ?_, ?_, m + 1, ?_, ?_⟩
    · simpa [Pool.popped, Pool.held, Pool.diagnosed, Pool.lost, List.filterMap_append,
        WorkerState.heldId, WorkerState.diagnosedId, WorkerState.lostId, hw, hc] using h1
    · simpa [Pool.popped, Pool.held, Pool.diagnosed, Pool.lost, List.filterMap_append,
        WorkerState.heldId, WorkerState.diagnosedId, WorkerState.lostId, hw, hc] using h2
    · simp [hc]
    · simpa [Pool.popped, Pool.held, Pool.diagnosed, Pool.lost, List.filterMap_append,
        WorkerState.heldId, WorkerState.diagnosedId, WorkerState.lostId, hw, hc] using h4
    · simpa [Pool.popped, Pool.held, Pool.diagnosed, Pool.lost, List.filterMap_append,
        WorkerState.heldId, WorkerState.diagnosedId, WorkerState.lostId, hw, hc] using h5
    · simpa [Pool.popped, Pool.held, Pool.diagnosed, Pool.lost, List.filterMap_append,
        WorkerState.heldId, WorkerState.diagnosedId, WorkerState.lostId, hw, hc] using h6
    · simp [Pool.popped, Pool.held, Pool.diagnosed, Pool.lost, List.filterMap_append,
        WorkerState.heldId, WorkerState.diagnosedId, WorkerState.lostId, hw, hc,
        List.replicate_succ', h7]
    · simp [hc]
  · intro l1 l2 id l hw _ _
    refine ⟨h1, ?_, ?_, ?_, ?_, ?_, m, h7, h8⟩
    · rw [List.perm_iff_count] at h2 ⊢
      intro a
      have := h2 a
      simp [Pool.popped, Pool.held, Pool.diagnosed, Pool.lost, List.filterMap_append,
          WorkerState.heldId, WorkerState.diagnosedId, WorkerState.lostId, hw, List.count_append,
          List.count_cons] at this ⊢
      omega
    · simpa [Pool.popped, Pool.held, Pool.diagnosed, Pool.lost, List.filterMap_append,
        WorkerState.heldId, WorkerState.diagnosedId, WorkerState.lostId, hw] using h3
    · simp [Pool.popped, Pool.held, Pool.diagnosed, Pool.lost, List.filterMap_append,
        WorkerState.heldId, WorkerState.diagnosedId, WorkerState.lostId, hw] at h4 ⊢
      omega
    · simpa [Pool.popped, Pool.held, Pool.diagnosed, Pool.lost, List.filterMap_append,
        WorkerState.heldId, WorkerState.diagnosedId, WorkerState.lostId, hw] using h5
    · simpa [Pool.popped, Pool.held, Pool.diagnosed, Pool.lost, List.filterMap_append,
        WorkerState.heldId, WorkerState.diagnosedId, WorkerState.lostId, hw] using h6
  · intro l1 l2 id hw _ _
    refine ⟨h1, ?_, ?_, ?_, ?_, ?_, m, h7, h8⟩
    · rw [List.perm_iff_count] at h2 ⊢
      intro a
      have := h2 a
      simp [Pool.popped, Pool.held, Pool.diagnosed, Pool.lost, List.filterMap_append,
          WorkerState.heldId, WorkerState.diagnosedId, WorkerState.lostId, hw, List.count_append,
          List.count_cons] at this ⊢
      omega
    · simpa [Pool.popped, Pool.held, Pool.diagnosed, Pool.lost, List.filterMap_append,
        WorkerState.heldId, WorkerState.diagnosedId, WorkerState.lostId, hw] using h3
    · simp [Pool.popped, Pool.held, Pool.diagnosed, Pool.lost, List.filterMap_append,
        WorkerState.heldId, WorkerState.diagnosedId, WorkerState.lostId, hw] at h4 ⊢
      omega
    · simp [Pool.popped, Pool.held, Pool.diagnosed, Pool.lost, List.filterMap_append,
        WorkerState.heldId, WorkerState.diagnosedId, WorkerState.lostId, hw] at h5 ⊢
      rw [← Nat.add_assoc, List.replicate_succ', ← h5]
    · simpa [Pool.popped, Pool.held, Pool.diagnosed, Pool.lost, List.filterMap_append,
        WorkerState.heldId, WorkerState.diagnosedId, WorkerState.lostId, hw] using h6
  · intro l1 l2 id hw _ _
    refine ⟨h1, ?_, ?_, ?_, ?_, ?_, m, h7, h8⟩
    · rw [List.perm_iff_count] at h2 ⊢
      intro a
      have := h2 a
      simp [Pool.popped, Pool.held, Pool.diagnosed, Pool.lost, List.filterMap_append,
          WorkerState.heldId, WorkerState.diagnosedId, WorkerState.lostId, hw, List.count_append,
          List.count_cons] at this ⊢
      omega
    · simpa [Pool.popped, Pool.held, Pool.diagnosed, Pool.lost, List.filterMap_append,
        WorkerState.heldId, WorkerState.diagnosedId, WorkerState.lostId, hw] using h3
    · simp [Pool.popped, Pool.held, Pool.diagnosed, Pool.lost, List.filterMap_append,
        WorkerState.heldId, WorkerState.diagnosedId, WorkerState.lostId, hw] at h4 ⊢
      omega
    · simpa [Pool.popped, Pool.held, Pool.diagnosed, Pool.lost, List.filterMap_append,
        WorkerState.heldId, WorkerState.diagnosedId, WorkerState.lostId, hw] using h5
    · simpa [Pool.popped, Pool.held, Pool.diagnosed, Pool.lost, List.filterMap_append,
        WorkerState.heldId, WorkerState.diagnosedId, WorkerState.lostId, hw] using h6

theorem Pool.run_nil (W : World) (s : Pool) : s.run W [] = s := rfl

theorem Pool.run_cons (W : World) (s : Pool) (w : Nat) (ws : List Nat) :
    s.run W (w :: ws) = (s.step W w).run W ws := rfl

theorem Pool.run_append (W : World) (s : Pool) (a b : List Nat) :
    s.run W (a ++ b) = (s.run W a).run W b := by
  simp [Pool.run, List.foldl_append]

theorem Pool.inv_run {ids0 : List Nat} {n : Nat} {s : Pool} (h : s.Inv ids0 n)
    (W : World) (schedule : List Nat) : (s.run W schedule).Inv ids0 n := by
  induction schedule generalizing s with
  | nil => exact h
  | cons w ws ih => exact ih (Pool.inv_step h W w)

theorem Pool.logged_step {W : World} {s : Pool} {log : List (Nat × Outcome)}
    (h : s.Logged W log) (w : Nat) : ∃ log2, (s.step W w).Logged W log2 := by
  obtain ⟨h1, h2, h3, h4, h5⟩ := h
  apply Pool.step_cases W s w (fun t => ∃ log2, t.Logged W log2)
  · exact ⟨log, h1, h2, h3, h4, h5⟩
  · intro l1 l2 id rest hw _ hc
    refine ⟨log, h1, h2, ?_, ?_, h5⟩
    · simpa [Pool.diagnosed, Pool.lost, List.filterMap_append, WorkerState.diagnosedId,
        WorkerState.lostId, hw] using h3
    · simpa [Pool.diagnosed, Pool.lost, List.filterMap_append, WorkerState.diagnosedId,
        WorkerState.lostId, hw] using h4
  · intro l1 l2 hw _ hc
    refine ⟨log, h1, h2, ?_, ?_, h5⟩
    · simpa [Pool.diagnosed, Pool.lost, List.filterMap_append, WorkerState.diagnosedId,
        WorkerState.lostId, hw] using h3
    · simpa [Pool.diagnosed, Pool.lost, List.filterMap_append, WorkerState.diagnosedId,
        WorkerState.lostId, hw] using h4
  · intro l1 l2 id l hw _ hb
    refine ⟨log ++ [(id, .line l)], ?_, ?_, ?_, ?_, ?_⟩
    · simp [h1]
    · simp [h2, List.filterMap_append, Outcome.lineOf]
    · simpa [Pool.diagnosed, Pool.lost, List.filterMap_append, WorkerState.diagnosedId,
        WorkerState.lostId, hw, diagnosedOf] using h3
    · simpa [Pool.diagnosed, Pool.lost, List.filterMap_append, WorkerState.diagnosedId,
        WorkerState.lostId, hw, lostOf] using h4
    · intro p hp
      rcases List.mem_append.1 hp with hp | hp
      · exact h5 p hp
      · simp at hp
        subst hp
        exact ⟨_, _, hb.symm⟩
  · intro l1 l2 id hw _ hb
    refine ⟨log ++ [(id, .diagnostic)], ?_, ?_, ?_, ?_, ?_⟩
    · simp [h1]
    · simp [h2, List.filterMap_append, Outcome.lineOf]
    · rw [List.perm_iff_count] at h3 ⊢
      intro a
      have := h3 a
      simp [Pool.diagnosed, List.filterMap_append, WorkerState.diagnosedId, hw, diagnosedOf,
          List.count_append, List.count_cons] at this ⊢
      omega
    · simpa [Pool.diagnosed, Pool.lost, List.filterMap_append, WorkerState.diagnosedId,
        WorkerState.lostId, hw, lostOf] using h4
    · intro p hp
      rcases List.mem_append.1 hp with hp | hp
      · exact h5 p hp
      · simp at hp
        subst hp
        exact ⟨_, _, hb.symm⟩
  · intro l1 l2 id hw _ hb
    refine ⟨log ++ [(id, .raised)], ?_, ?_, ?_, ?_, ?_⟩
    · simp [h1]
    · simp [h2, List.filterMap_append, Outcome.lineOf]
    · simpa [Pool.diagnosed, Pool.lost, List.filterMap_append, WorkerState.diagnosedId,
        WorkerState.lostId, hw, diagnosedOf] using h3
    · rw [List.perm_iff_count] at h4 ⊢
      intro a
      have := h4 a
      simp [Pool.lost, List.filterMap_append, WorkerState.lostId, hw, lostOf, List.count_append,
          List.count_cons] at this ⊢
      omega
    · intro p hp
      rcases List.mem_append.1 hp with hp | hp
      · exact h5 p hp
      · simp at hp
        subst hp
        exact ⟨_, _, hb.symm⟩

theorem Pool.logged_start (W : World) (c : IdCollection) (n : Nat) :
    (Pool.start c n).Logged W [] := by
  have h1 : List.filterMap WorkerState.diagnosedId (List.replicate n WorkerState.ready) = [] := by
    induction n with
    | zero => rfl
    | succ k ih => simp [List.replicate_succ, WorkerState.diagnosedId, ih]
  have h2 : List.filterMap WorkerState.lostId (List.replicate n WorkerState.ready) = [] := by
    induction n with
    | zero => rfl
    | succ k ih => simp [List.replicate_succ, WorkerState.lostId, ih]
  exact ⟨rfl, rfl, by simp [Pool.start, Pool.diagnosed, h1], by simp [Pool.start, Pool.lost, h2],
    by simp⟩

theorem Pool.logged_run {W : World} {s : Pool} {log : List (Nat × Outcome)}
    (h : s.Logged W log) (schedule : List Nat) :
    ∃ log2, (s.run W schedule).Logged W log2 := by
  induction schedule generalizing s log with
  | nil => exact ⟨log, h⟩
  | cons w ws ih =>
    obtain ⟨log1, h1⟩ := Pool.logged_step h w
    exact ih h1

/-! ## The constructor and `Next` -/

theorem IdCollection.pushAll_map_some (listing ids : List Nat) :
    IdCollection.pushAll (listing.map some) ids = .ok (listing.reverse ++ ids) := by
  induction listing generalizing ids with
  | nil => rfl
  | cons a t ih => simp [IdCollection.pushAll, ih]

theorem IdCollection.new_listingBody (listing : List Nat) :
    IdCollection.new (listingBody listing) = .ok ⟨listing.reverse⟩ := by
  simp [IdCollection.new, listingBody, IdCollection.pushAll_map_some]

theorem IdCollection.nextN_fst (n : Nat) (c : IdCollection) :
    (IdCollection.nextN n c).1 =
      (c.ids_.take n).map some ++ List.replicate (n - c.ids_.length) none := by
  induction n generalizing c with
  | zero => simp [IdCollection.nextN]
  | succ k ih =>
    obtain ⟨ids⟩ := c
    cases ids with
    | nil => simp [IdCollection.nextN, IdCollection.Next, ih, List.replicate_succ]
    | cons a t => simp [IdCollection.nextN, IdCollection.Next, ih]

theorem IdCollection.nextN_snd (n : Nat) (c : IdCollection) :
    (IdCollection.nextN n c).2 = ⟨c.ids_.drop n⟩ := by
  induction n generalizing c with
  | zero => simp [IdCollection.nextN]
  | succ k ih =>
    obtain ⟨ids⟩ := c
    cases ids with
    | nil => simp [IdCollection.nextN, IdCollection.Next, ih]
    | cons a t => simp [IdCollection.nextN, IdCollection.Next, ih]

theorem IdCollection.new_of_lists {json : Body} {listing : List Nat}
    (h : json.lists listing) : IdCollection.new json = .ok ⟨listing.reverse⟩ := by
  obtain ⟨v, h1, h2, h3, h4⟩ := h
  simp [IdCollection.new, h1, h2, h3, h4, IdCollection.pushAll_map_some]

theorem listingBody_lists (listing : List Nat) : (listingBody listing).lists listing :=
  ⟨_, rfl, rfl, rfl, rfl⟩

theorem Worker.body_of_carries {r : Option Body} {id : Nat} (h : Carries r id) (tid : Nat) :
    ∃ t, Worker.body r tid = .line ⟨id, t, tid⟩ := by
  obtain ⟨v, t, h1, h2, h3⟩ := h
  exact ⟨t, by simp [Worker.body, h1, h2, h3]⟩

theorem Worker.body_line {r : Option Body} {tid : Nat} {l : SuccessLine}
    (h : Worker.body r tid = .line l) : Carries r l.story_id ∧ l.tid = tid := by
  unfold Worker.body at h
  split at h
  · simp at h
  · next text =>
    split at h
    · simp at h
    · next objects hp =>
      split at h
      · simp at h
      · next hs =>
        split at h
        · simp at h
        · next object ho =>
          split at h
          · simp at h
          · next story_id hid =>
            split at h
            · simp at h
            · next story_title ht =>
              simp at h
              subst h
              refine ⟨⟨objects, story_title, ?_, by simpa using hs, ?_⟩, rfl⟩
              · obtain ⟨p⟩ := text
                simp at hp
                simp [hp]
              · obtain ⟨i, t⟩ := object
                simp at hid ht
                simp [ho, hid, ht]

theorem Application.mainWith_eq {W : World} {json : Body} {c : IdCollection}
    (h1 : W.topstories = some json) (h2 : IdCollection.new json = .ok c) (n : Nat)
    (schedule : List Nat) :
    Application.mainWith n W schedule =
      if ((Pool.start c n).run W schedule).allTerminated
      then .returned 0 ((Pool.start c n).run W schedule)
      else .joining ((Pool.start c n).run W schedule) := by
  simp [Application.mainWith, h1, h2]

/-! ## Terminated workers -/

theorem terminated_length (l : List WorkerState) (h : l.all WorkerState.terminated = true) :
    l.length = l.count .finished + (l.filterMap WorkerState.diagnosedId).length +
      (l.filterMap WorkerState.lostId).length ∧ l.filterMap WorkerState.heldId = [] := by
  induction l with
  | nil => simp
  | cons a t ih =>
    simp only [List.all_cons, Bool.and_eq_true] at h
    obtain ⟨ih1, ih2⟩ := ih h.2
    cases a <;> simp [WorkerState.terminated] at h <;>
      simp [List.count_cons, WorkerState.diagnosedId, WorkerState.lostId, WorkerState.heldId,
          ih2] <;>
      omega

theorem Pool.held_of_allTerminated {s : Pool} (h : s.allTerminated = true) : s.held = [] :=
  (terminated_length s.workers h).2

theorem Pool.finished_of_allTerminated {s : Pool} (h : s.allTerminated = true)
    (hlt : s.diagnosed.length + s.lost.length < s.workers.length) :
    WorkerState.finished ∈ s.workers := by
  have := (terminated_length s.workers h).1
  simp only [Pool.diagnosed, Pool.lost] at hlt
  have hpos : 0 < s.workers.count .finished := by omega
  exact List.count_pos_iff.1 hpos

/-! ## Termination of the workers -/

theorem Pool.step_other (W : World) (s : Pool) {v w : Nat} (h : v ≠ w) :
    (s.step W v).workers[w]? = s.workers[w]? := by
  unfold Pool.step
  split
  · split <;> simp [List.getElem?_set_ne h]
  · split <;> simp [List.getElem?_set_ne h]
  · rfl

theorem Pool.step_terminated (W : World) (s : Pool) {w : Nat} {st : WorkerState}
    (h : s.workers[w]? = some st) (ht : st.terminated = true) : s.step W w = s := by
  unfold Pool.step
  rw [h]
  cases st <;> simp [WorkerState.terminated] at ht ⊢

theorem Pool.step_stays (W : World) (s : Pool) (v : Nat) {w : Nat} {st : WorkerState}
    (h : s.workers[w]? = some st) (ht : st.terminated = true) :
    (s.step W v).workers[w]? = some st := by
  by_cases hv : v = w
  · subst hv
    rw [Pool.step_terminated W s h ht, h]
  · rw [Pool.step_other W s hv, h]

theorem Pool.run_stays (W : World) (s : Pool) (schedule : List Nat) {w : Nat}
    {st : WorkerState} (h : s.workers[w]? = some st) (ht : st.terminated = true) :
    (s.run W schedule).workers[w]? = some st := by
  induction schedule generalizing s with
  | nil => exact h
  | cons v vs ih => exact ih (s.step W v) (Pool.step_stays W s v h ht)

theorem Pool.step_length (W : World) (s : Pool) (w : Nat) :
    (s.step W w).workers.length = s.workers.length ∧
      (s.step W w).collection.ids_.length ≤ s.collection.ids_.length := by
  apply Pool.step_cases W s w
    (fun t => t.workers.length = s.workers.length ∧
      t.collection.ids_.length ≤ s.collection.ids_.length)
  · exact ⟨rfl, le_refl _⟩
  · intro l1 l2 id rest hw _ hc
    simp [hw, hc]
  · intro l1 l2 hw _ hc
    simp [hw]
  · intro l1 l2 id l hw _ _
    simp [hw]
  · intro l1 l2 id hw _ _
    simp [hw]
  · intro l1 l2 id hw _ _
    simp [hw]

theorem Pool.run_length (W : World) (s : Pool) (schedule : List Nat) :
    (s.run W schedule).workers.length = s.workers.length ∧
      (s.run W schedule).collection.ids_.length ≤ s.collection.ids_.length := by
  induction schedule generalizing s with
  | nil => exact ⟨rfl, le_refl _⟩
  | cons v vs ih =>
    obtain ⟨a, b⟩ := ih (s.step W v)
    obtain ⟨c, d⟩ := Pool.step_length W s v
    exact ⟨a.trans c, b.trans d⟩

theorem Pool.fuel_step (W : World) (s : Pool) (w : Nat) :
    (s.step W w).fuel w ≤ s.fuel w - 1 := by
  unfold Pool.step
  split
  · next hw =>
    have hlt : w < s.workers.length := by
      by_contra hge
      rw [List.getElem?_eq_none (by omega)] at hw
      simp at hw
    cases hc : s.collection.ids_ with
    | nil => simp [IdCollection.Next, hc, Pool.fuel, hw, List.getElem?_set_self hlt]
    | cons id rest =>
      simp [IdCollection.Next, hc, Pool.fuel, hw, List.getElem?_set_self hlt]
      omega
  · next id hw =>
    have hlt : w < s.workers.length := by
      by_contra hge
      rw [List.getElem?_eq_none (by omega)] at hw
      simp at hw
    split <;> simp [Pool.fuel, hw, List.getElem?_set_self hlt]
  · next h1 h2 =>
    have : s.fuel w = 0 := by
      unfold Pool.fuel
      split
      · next h => exact absurd h h1
      · next id h => exact absurd h (h2 id)
      · rfl
    omega

theorem Pool.fuel_run (W : World) (s : Pool) (w m : Nat) :
    (s.run W (List.replicate m w)).fuel w ≤ s.fuel w - m := by
  induction m generalizing s with
  | zero => simp [Pool.run]
  | succ k ih =>
    rw [List.replicate_succ, Pool.run_cons]
    have h1 := ih (s.step W w)
    have h2 := Pool.fuel_step W s w
    omega

theorem Pool.fuel_le (s : Pool) (w : Nat) : s.fuel w ≤ 2 * s.collection.ids_.length + 2 := by
  unfold Pool.fuel
  split <;> omega

theorem Pool.terminated_of_fuel {s : Pool} {w : Nat} (hw : w < s.workers.length)
    (h : s.fuel w = 0) : ∃ st, s.workers[w]? = some st ∧ st.terminated = true := by
  refine ⟨s.workers[w], List.getElem?_eq_getElem hw, ?_⟩
  unfold Pool.fuel at h
  rw [List.getElem?_eq_getElem hw] at h
  cases hst : s.workers[w] <;> simp [hst] at h <;> rfl

theorem Pool.drain_terminates (W : World) (k n : Nat) :
    ∀ (j : Nat) (s : Pool), j ≤ n → s.workers.length = n → s.collection.ids_.length ≤ k →
      ∀ w, w < j → ∃ st, (s.run W (Pool.drain j k)).workers[w]? = some st ∧
        st.terminated = true := by
  intro j
  induction j with
  | zero => intro s _ _ _ w hw; omega
  | succ i ih =>
    intro s hj hn hk w hw
    rw [Pool.drain, Pool.run_append]
    have hlen := Pool.run_length W s (Pool.drain i k)
    by_cases hwi : w < i
    · obtain ⟨st, h1, h2⟩ := ih s (by omega) hn hk w hwi
      exact ⟨st, Pool.run_stays W _ _ h1 h2, h2⟩
    · have hwi2 : w = i := by omega
      subst hwi2
      have hf := Pool.fuel_run W (s.run W (Pool.drain w k)) w (2 * k + 2)
      have hb := Pool.fuel_le (s.run W (Pool.drain w k)) w
      have hlen2 := Pool.run_length W (s.run W (Pool.drain w k)) (List.replicate (2 * k + 2) w)
      apply Pool.terminated_of_fuel
      · rw [hlen2.1, hlen.1, hn]
        omega
      · have := hlen.2
        omega

theorem Pool.allTerminated_iff (s : Pool) :
    s.allTerminated = true ↔
      ∀ w, w < s.workers.length → ∃ st, s.workers[w]? = some st ∧ st.terminated = true := by
  unfold Pool.allTerminated
  rw [List.all_eq_true]
  constructor
  · intro h w hw
    exact ⟨s.workers[w], List.getElem?_eq_getElem hw, h _ (List.getElem_mem hw)⟩
  · intro h st hst
    obtain ⟨w, hw, rfl⟩ := List.getElem_of_mem hst
    obtain ⟨st2, h1, h2⟩ := h w hw
    rw [List.getElem?_eq_getElem hw] at h1
    simp only [Option.some.injEq] at h1
    rw [h1]
    exact h2

theorem Pool.drain_allTerminated (W : World) (s : Pool) :
    (s.run W (Pool.drain s.workers.length s.collection.ids_.length)).allTerminated = true := by
  rw [Pool.allTerminated_iff]
  intro w hw
  rw [(Pool.run_length W s _).1] at hw
  exact Pool.drain_terminates W _ _ _ s (le_refl _) rfl (le_refl _) w hw

theorem Application.returns_after_drain {W : World} {json : Body} {c : IdCollection}
    (htop : W.topstories = some json) (hnew : IdCollection.new json = .ok c) (n : Nat)
    (schedule : List Nat) :
    ∃ s, Application.mainWith n W (schedule ++ Pool.drain n c.ids_.length) = .returned 0 s ∧
      s.allTerminated = true := by
  have hlen := Pool.run_length W (Pool.start c n) schedule
  have hterm : (((Pool.start c n).run W schedule).run W
      (Pool.drain n c.ids_.length)).allTerminated = true := by
    rw [Pool.allTerminated_iff]
    intro w hw
    rw [(Pool.run_length W _ _).1, hlen.1] at hw
    simp only [Pool.start, List.length_replicate] at hw
    exact Pool.drain_terminates W c.ids_.length n n _ (le_refl _)
      (by rw [hlen.1]; simp [Pool.start]) (by simpa [Pool.start] using hlen.2) w hw
  rw [Application.mainWith_eq htop hnew, Pool.run_append, if_pos hterm]
  exact ⟨_, rfl, hterm⟩

theorem Application.returns_of_lists {W : World} {listing : List Nat} (h : W.lists listing)
    (n : Nat) (schedule : List Nat) :
    ∃ s, Application.mainWith n W (schedule ++ Pool.drain n listing.length) = .returned 0 s := by
  obtain ⟨json, h1, h2⟩ := h
  obtain ⟨s, hs, -⟩ := Application.returns_after_drain h1 (IdCollection.new_of_lists h2) n schedule
  rw [List.length_reverse] at hs
  exact ⟨s, hs⟩

/-! ## Worlds in which every request succeeds -/

theorem lineOf_length (log : List (Nat × Outcome)) (hall : ∀ p ∈ log, ∃ l, p.2 = .line l) :
    (log.filterMap (fun p => p.2.lineOf)).length = log.length := by
  induction log with
  | nil => rfl
  | cons p t ih =>
    obtain ⟨l, hl⟩ := hall p (List.mem_cons_self _ _)
    have := ih (fun q hq => hall q (List.mem_cons_of_mem _ hq))
    have e : p.2.lineOf = some l := by rw [hl]; rfl
    rw [List.filterMap_cons]
    simp only [e, List.length_cons, this]

theorem Pool.logged_no_failure {W : World} {s : Pool} {log : List (Nat × Outcome)}
    (h : s.Logged W log) (hW : ∀ k w id, Succeeds (W.item k w id)) :
    s.diagnosed = [] ∧ s.lost = [] ∧ s.cout.length = s.requests.length := by
  have hall : ∀ p ∈ log, ∃ l, p.2 = .line l := by
    intro p hp
    obtain ⟨k, w, hb⟩ := h.answered p hp
    obtain ⟨id, hc⟩ := hW k w p.1
    obtain ⟨t, ht⟩ := Worker.body_of_carries hc (W.tid w)
    exact ⟨_, hb.trans ht⟩
  have hd : log.filterMap diagnosedOf = [] := by
    rw [List.filterMap_eq_nil_iff]
    intro p hp
    obtain ⟨l, hl⟩ := hall p hp
    simp [diagnosedOf, hl]
  have hl : log.filterMap lostOf = [] := by
    rw [List.filterMap_eq_nil_iff]
    intro p hp
    obtain ⟨l, hl⟩ := hall p hp
    simp [lostOf, hl]
  have hc := lineOf_length log hall
  refine ⟨?_, ?_, ?_⟩
  · simpa [hd] using h.diagnosed_perm
  · simpa [hl] using h.lost_perm
  · rw [h.cout_eq, h.requests_eq, hc, List.length_map]

/-! ## A single worker -/

theorem Pool.single_step {s : Pool} (h1 : s.workers.length = 1)
    (h2 : s.requests ++ s.held = s.popped) (W : World) (w : Nat) :
    (s.step W w).workers.length = 1 ∧
      (s.step W w).requests ++ (s.step W w).held = (s.step W w).popped := by
  have key : ∀ (l1 l2 : List WorkerState) (y : WorkerState), s.workers = l1 ++ y :: l2 →
      l1 = [] ∧ l2 = [] := by
    intro l1 l2 y hw
    rw [hw] at h1
    simp at h1
    exact ⟨List.length_eq_zero.1 (by omega), List.length_eq_zero.1 (by omega)⟩
  apply Pool.step_cases W s w
    (fun t => t.workers.length = 1 ∧ t.requests ++ t.held = t.popped)
  · exact ⟨h1, h2⟩
  · intro l1 l2 id rest hw _ _
    obtain ⟨e1, e2⟩ := key l1 l2 _ hw
    subst e1 e2
    simp [Pool.held, Pool.popped, hw, WorkerState.heldId, List.filterMap_append] at h2 ⊢
    exact h2
  · intro l1 l2 hw _ _
    obtain ⟨e1, e2⟩ := key l1 l2 _ hw
    subst e1 e2
    simp [Pool.held, Pool.popped, hw, WorkerState.heldId, List.filterMap_append] at h2 ⊢
    exact h2
  · intro l1 l2 id l hw _ _
    obtain ⟨e1, e2⟩ := key l1 l2 _ hw
    subst e1 e2
    simp [Pool.held, Pool.popped, hw, WorkerState.heldId, List.filterMap_append] at h2 ⊢
    exact h2
  · intro l1 l2 id hw _ _
    obtain ⟨e1, e2⟩ := key l1 l2 _ hw
    subst e1 e2
    simp [Pool.held, Pool.popped, hw, WorkerState.heldId, List.filterMap_append] at h2 ⊢
    exact h2
  · intro l1 l2 id hw _ _
    obtain ⟨e1, e2⟩ := key l1 l2 _ hw
    subst e1 e2
    simp [Pool.held, Pool.popped, hw, WorkerState.heldId, List.filterMap_append] at h2 ⊢
    exact h2

theorem Pool.single_run {s : Pool} (h1 : s.workers.length = 1)
    (h2 : s.requests ++ s.held = s.popped) (W : World) (schedule : List Nat) :
    (s.run W schedule).requests ++ (s.run W schedule).held = (s.run W schedule).popped := by
  induction schedule generalizing s with
  | nil => exact h2
  | cons w ws ih =>
    obtain ⟨a, b⟩ := Pool.single_step h1 h2 W w
    exact ih a b

/-- C1: an `IdCollection` built from the listing `[a1, ..., an]` hands out `an, ..., a1`
in that order on `n` successive calls of `Next`, each returning `true`; and a pool of
one worker whose requests all succeed has, at every moment, requested an initial part
of the reversed listing, and the whole reversed listing (with one line written per
identifier) once the worker has terminated, which it does when it is let run. -/
theorem lifo_order (listing : List Nat) (json : Body) (W : World) (schedule : List Nat)
    (hjson : json.lists listing) (htop : W.topstories = some json)
    (hW : ∀ k w id, Succeeds (W.item k w id)) :
    ∃ c, IdCollection.new json = .ok c ∧
      (IdCollection.nextN listing.length c).1 = listing.reverse.map some ∧
      (∀ s, Application.mainWith 1 W schedule = .joining s →
        s.requests <+: listing.reverse) ∧
      (∀ code s, Application.mainWith 1 W schedule = .returned code s →
        s.requests = listing.reverse ∧ s.cout.length = listing.length) ∧
      (∃ s, Application.mainWith 1 W (schedule ++ Pool.drain 1 listing.length) =
        .returned 0 s) := by
  have hnew := IdCollection.new_of_lists hjson
  refine ⟨⟨listing.reverse⟩, hnew, ?_, ?_, ?_,
    Application.returns_of_lists ⟨json, htop, hjson⟩ 1 schedule⟩
  · simp [IdCollection.nextN_fst]
  · intro s hs
    rw [Application.mainWith_eq htop hnew] at hs
    split at hs
    · simp at hs
    · simp only [MainResult.joining.injEq] at hs
      subst hs
      have hinv := Pool.inv_run (Pool.inv_start listing.reverse 1) W schedule
      have hseq := Pool.single_run (s := Pool.start ⟨listing.reverse⟩ 1) (by simp [Pool.start])
        (by simp [Pool.start, Pool.held, Pool.popped, WorkerState.heldId]) W schedule
      exact ⟨_, by rw [← List.append_assoc, hseq, hinv.stack]⟩
  · intro code s hs
    rw [Application.mainWith_eq htop hnew] at hs
    split at hs
    · next hterm =>
      simp only [MainResult.returned.injEq] at hs
      obtain ⟨-, hs⟩ := hs
      subst hs
      have hinv := Pool.inv_run (Pool.inv_start listing.reverse 1) W schedule
      have hseq := Pool.single_run (s := Pool.start ⟨listing.reverse⟩ 1) (by simp [Pool.start])
        (by simp [Pool.start, Pool.held, Pool.popped, WorkerState.heldId]) W schedule
      obtain ⟨log, hlog⟩ := Pool.logged_run (Pool.logged_start W ⟨listing.reverse⟩ 1) schedule
      obtain ⟨hd, hl, hc⟩ := Pool.logged_no_failure hlog hW
      have hheld := Pool.held_of_allTerminated hterm
      have hfin := Pool.finished_of_allTerminated hterm (by simp [hd, hl, hinv.size])
      have hempty := hinv.drained hfin
      have hst := hinv.stack
      rw [hempty, List.append_nil, ← hseq, hheld, List.append_nil] at hst
      exact ⟨hst, by rw [hc, hst, List.length_reverse]⟩
    · simp at hs

/-- Witness for C1: the listing `[7, 8, 9]`, one worker, seven steps. -/
theorem lifo_order_witness :
    ∃ c, IdCollection.new (listingBody [7, 8, 9]) = .ok c ∧
      (IdCollection.nextN 3 c).1 = [some 9, some 8, some 7] ∧
      (∀ s, Application.mainWith 1 (World.echo [7, 8, 9]) [0, 0, 0, 0, 0, 0, 0] = .joining s →
        s.requests <+: [9, 8, 7]) ∧
      (∀ code s,
        Application.mainWith 1 (World.echo [7, 8, 9]) [0, 0, 0, 0, 0, 0, 0] = .returned code s →
        s.requests = [9, 8, 7] ∧ s.cout.length = 3) ∧
      (∃ s, Application.mainWith 1 (World.echo [7, 8, 9])
        ([0, 0, 0, 0, 0, 0, 0] ++ Pool.drain 1 3) = .returned 0 s) :=
  lifo_order [7, 8, 9] (listingBody [7, 8, 9]) (World.echo [7, 8, 9]) [0, 0, 0, 0, 0, 0, 0]
    (listingBody_lists _) rfl (fun _ _ id => ⟨id, _, _, rfl, rfl, rfl⟩)

/-! ## Results of `Next` -/

theorem Application.mainWith_pool {W : World} {listing : List Nat} (h : W.lists listing)
    (n : Nat) (schedule : List Nat) :
    (Application.mainWith n W schedule).pool =
      some ((Pool.start ⟨listing.reverse⟩ n).run W schedule) := by
  obtain ⟨json, h1, h2⟩ := h
  rw [Application.mainWith_eq h1 (IdCollection.new_of_lists h2)]
  split <;> rfl

theorem World.echo_lists (listing : List Nat) : (World.echo listing).lists listing :=
  ⟨_, rfl, listingBody_lists listing⟩

/-- C2: on a queue loaded with `K` identifiers, the results of any sequence of calls of
`Next` are `true` (with the identifiers from the top down) for the first `K` calls and
`false` for every later call, both for successive calls on the collection and for the
calls made by the workers of a pool of any size under any schedule. -/
theorem next_results (c : IdCollection) (n : Nat) (W : World) (m : Nat)
    (schedule : List Nat) :
    (IdCollection.nextN n c).1 =
        (c.ids_.take n).map some ++ List.replicate (n - c.ids_.length) none ∧
      (((Pool.start c m).run W schedule).calls.map Prod.snd =
        (c.ids_.take ((Pool.start c m).run W schedule).calls.length).map some ++
          List.replicate (((Pool.start c m).run W schedule).calls.length - c.ids_.length)
            none) := by
  refine ⟨IdCollection.nextN_fst n c, ?_⟩
  obtain ⟨ids0⟩ := c
  have hinv := Pool.inv_run (Pool.inv_start ids0 m) W schedule
  generalize (Pool.start ⟨ids0⟩ m).run W schedule = s at hinv
  obtain ⟨k, h7, h8⟩ := hinv.results
  have hst := hinv.stack
  have hlen : s.calls.length = s.popped.length + k := by
    have := congrArg List.length h7
    simpa using this
  rcases Nat.eq_zero_or_pos k with hk | hk
  · subst hk
    have h1 : ids0.take s.calls.length = s.popped := by
      rw [← hst, hlen]
      simp
    have h2 : s.calls.length - ids0.length = 0 := by
      rw [← hst, hlen]
      simp
    simp only [h1, h2, h7]
  · have he := h8 hk
    rw [he, List.append_nil] at hst
    have h1 : ids0.take s.calls.length = s.popped := by
      rw [← hst, hlen]
      simp
    have h2 : s.calls.length - ids0.length = k := by
      rw [← hst, hlen]
      simp
    simp only [h1, h2, h7]

/-! ## Lines against requests -/

theorem log_lines_sublist (log : List (Nat × Outcome))
    (hecho : ∀ p ∈ log, ∀ l, p.2 = .line l → l.story_id = p.1) :
    ((log.filterMap (fun p => p.2.lineOf)).map SuccessLine.story_id).Sublist
      (log.map Prod.fst) := by
  induction log with
  | nil => simp
  | cons p t ih =>
    have iht := ih (fun q hq => hecho q (List.mem_cons_of_mem _ hq))
    obtain ⟨id, o⟩ := p
    cases o with
    | line l =>
      have e := hecho (id, .line l) (List.mem_cons_self _ _) l rfl
      simp only [List.filterMap_cons, Outcome.lineOf, List.map_cons, e]
      exact iht.cons₂ _
    | diagnostic =>
      simp only [List.filterMap_cons, Outcome.lineOf, List.map_cons]
      exact iht.cons _
    | raised =>
      simp only [List.filterMap_cons, Outcome.lineOf, List.map_cons]
      exact iht.cons _

theorem log_partition (log : List (Nat × Outcome))
    (hecho : ∀ p ∈ log, ∀ l, p.2 = .line l → l.story_id = p.1) :
    (log.map Prod.fst).Perm
      ((log.filterMap (fun p => p.2.lineOf)).map SuccessLine.story_id ++
        log.filterMap diagnosedOf ++ log.filterMap lostOf) := by
  induction log with
  | nil => simp
  | cons p t ih =>
    have iht := ih (fun q hq => hecho q (List.mem_cons_of_mem _ hq))
    rw [List.perm_iff_count] at iht ⊢
    intro a
    have := iht a
    obtain ⟨id, o⟩ := p
    cases o with
    | line l =>
      have e := hecho (id, .line l) (List.mem_cons_self _ _) l rfl
      simp only [List.filterMap_cons, Outcome.lineOf, diagnosedOf, lostOf, List.map_cons,
        List.count_cons, List.count_append, e] at this ⊢
      simp [List.count_cons] at this ⊢
      omega
    | diagnostic =>
      simp only [List.filterMap_cons, Outcome.lineOf, diagnosedOf, lostOf, List.map_cons,
        List.count_cons, List.count_append] at this ⊢
      simp [List.count_cons] at this ⊢
      omega
    | raised =>
      simp only [List.filterMap_cons, Outcome.lineOf, diagnosedOf, lostOf, List.map_cons,
        List.count_cons, List.count_append] at this ⊢
      simp [List.count_cons] at this ⊢
      omega

theorem Pool.logged_echo {W : World} {s : Pool} {log : List (Nat × Outcome)}
    (h : s.Logged W log) (hW : W.echoes) :
    ∀ p ∈ log, ∀ l, p.2 = .line l → l.story_id = p.1 := by
  intro p hp l hl
  obtain ⟨k, w, hb⟩ := h.answered p hp
  exact hW k w p.1 l.story_id (Worker.body_line (hb.symm.trans hl)).1

theorem Pool.lines_sublist {W : World} {s : Pool} {log : List (Nat × Outcome)}
    (h : s.Logged W log) (hW : W.echoes) :
    (s.cout.map SuccessLine.story_id).Sublist s.requests := by
  rw [h.cout_eq, h.requests_eq]
  exact log_lines_sublist log (Pool.logged_echo h hW)

theorem Pool.requests_perm {W : World} {s : Pool} {log : List (Nat × Outcome)}
    (h : s.Logged W log) (hW : W.echoes) :
    s.requests.Perm (s.cout.map SuccessLine.story_id ++ s.diagnosed ++ s.lost) := by
  rw [h.cout_eq, h.requests_eq]
  refine (log_partition log (Pool.logged_echo h hW)).trans ?_
  exact (List.Perm.append (List.Perm.append_left _ h.diagnosed_perm.symm) h.lost_perm.symm)

/-- Counterexample to C3 as stated: with the listing `[5, 5]` the two successful calls
of `Next` hand out the same identifier and two lines carry it. -/
theorem at_most_once_counterexample :
    Application.main (World.echo [5, 5]) [0, 0, 0, 0, 0, 1, 2, 3, 4, 5, 6, 7] =
      .returned 0
        { collection := ⟨[]⟩
          workers := List.replicate 8 .finished
          cout := [⟨5, "t", 100⟩, ⟨5, "t", 100⟩]
          cerr := []
          calls := [(0, some 5), (0, some 5), (0, none), (1, none), (2, none), (3, none),
            (4, none), (5, none), (6, none), (7, none)]
          requests := [5, 5] } := by
  decide

/-- C3, amended: the identifiers handed out by `Next` are always an initial part of
the loaded stack, so each position of the listing is handed out at most once; when the
listing has no repeated identifier, no two successful calls of `Next` hand out the
same identifier, and if moreover every well-formed answer carries the identifier
asked for, no identifier appears in two lines. -/
theorem at_most_once (listing : List Nat) (W : World) (n : Nat) (schedule : List Nat)
    (s : Pool) (hlist : W.lists listing)
    (hs : (Application.mainWith n W schedule).pool = some s) :
    s.popped <+: listing.reverse ∧
      (listing.Nodup → s.popped.Nodup ∧
        (W.echoes → (s.cout.map SuccessLine.story_id).Nodup)) := by
  rw [Application.mainWith_pool hlist] at hs
  simp only [Option.some.injEq] at hs
  subst hs
  have hinv := Pool.inv_run (Pool.inv_start listing.reverse n) W schedule
  obtain ⟨log, hlog⟩ := Pool.logged_run (Pool.logged_start W ⟨listing.reverse⟩ n) schedule
  refine ⟨⟨_, hinv.stack⟩, fun hnd => ?_⟩
  have hpop : ((Pool.start ⟨listing.reverse⟩ n).run W schedule).popped.Nodup := by
    have : (listing.reverse).Nodup := List.nodup_reverse.2 hnd
    rw [← hinv.stack] at this
    exact this.of_append_left
  refine ⟨hpop, fun hecho => ?_⟩
  have hreq := (hinv.perm.nodup_iff.2 hpop).of_append_left
  exact hreq.sublist (Pool.lines_sublist hlog hecho)

theorem World.echo_echoes (listing : List Nat) : (World.echo listing).echoes := by
  rintro k w id i ⟨v, t, h1, -, h3⟩
  simp only [World.echo, itemBody, Option.some.injEq, Body.mk.injEq] at h1
  subst h1
  simp only [Option.some.injEq, JsonObject.mk.injEq] at h3
  exact h3.1.symm

/-- Witness for C3: the listing `[7, 8, 9]`, two workers taking turns. -/
theorem at_most_once_witness :
    ((Pool.start ⟨[7, 8, 9].reverse⟩ 2).run (World.echo [7, 8, 9])
        [0, 1, 0, 1, 0, 1, 0, 1]).popped.Nodup ∧
      (((Pool.start ⟨[7, 8, 9].reverse⟩ 2).run (World.echo [7, 8, 9])
        [0, 1, 0, 1, 0, 1, 0, 1]).cout.map SuccessLine.story_id).Nodup :=
  have h := at_most_once [7, 8, 9] (World.echo [7, 8, 9]) 2 [0, 1, 0, 1, 0, 1, 0, 1] _
    (World.echo_lists _) (Application.mainWith_pool (World.echo_lists _) 2 _)
  ⟨(h.2 (by decide)).1, (h.2 (by decide)).2 (World.echo_echoes _)⟩

/-! ## Accounting of identifiers -/

theorem Application.mainWith_returned {W : World} {listing : List Nat} (h : W.lists listing)
    {n : Nat} {schedule : List Nat} {code : Int} {s : Pool}
    (hs : Application.mainWith n W schedule = .returned code s) :
    code = 0 ∧ s = (Pool.start ⟨listing.reverse⟩ n).run W schedule ∧ s.allTerminated = true := by
  obtain ⟨json, h1, h2⟩ := h
  rw [Application.mainWith_eq h1 (IdCollection.new_of_lists h2)] at hs
  split at hs
  · next hterm =>
    simp only [MainResult.returned.injEq] at hs
    exact ⟨hs.1.symm, hs.2.symm, hs.2 ▸ hterm⟩
  · simp at hs

/-- Counterexample to C4 as stated: nine identifiers, eight workers, every item request
times out.  Each worker loses the identifier it popped and identifier 1 stays in the
queue: no line, no diagnostic, eight identifiers lost, and eight is not nine. -/
theorem accounting_counterexample :
    Application.main (World.timeouts [1, 2, 3, 4, 5, 6, 7, 8, 9] [1, 2, 3, 4, 5, 6, 7, 8, 9])
        [0, 0, 1, 1, 2, 2, 3, 3, 4, 4, 5, 5, 6, 6, 7, 7] =
      .returned 0
        { collection := ⟨[1]⟩
          workers := [.raised 9, .raised 8, .raised 7, .raised 6, .raised 5, .raised 4,
            .raised 3, .raised 2]
          cout := []
          cerr := []
          calls := [(0, some 9), (1, some 8), (2, some 7), (3, some 6), (4, some 5),
            (5, some 4), (6, some 3), (7, some 2)]
          requests := [9, 8, 7, 6, 5, 4, 3, 2] } := by
  decide

/-- C4, amended: when `main` returns, the number of lines, plus the number of
diagnostics, plus the number of identifiers lost to an exception that left a worker
(a transport failure or a response that raises in the JSON library), plus the number of
identifiers still in the queue, is the number of listed identifiers; the queue is empty
as soon as one worker ended on an empty queue; and every schedule can be continued to
one after which `main` returns. -/
theorem accounting (listing : List Nat) (W : World) (n : Nat) (schedule : List Nat)
    (hlist : W.lists listing) :
    (∀ code s, Application.mainWith n W schedule = .returned code s →
      s.cout.length + s.cerr.length + s.lost.length + s.collection.ids_.length =
          listing.length ∧
        (WorkerState.finished ∈ s.workers → s.collection.ids_ = [])) ∧
      (∃ s, Application.mainWith n W (schedule ++ Pool.drain n listing.length) =
        .returned 0 s) := by
  refine ⟨fun code s hs => ?_, Application.returns_of_lists hlist n schedule⟩
  obtain ⟨-, hrun, hterm⟩ := Application.mainWith_returned hlist hs
  have hinv := Pool.inv_run (Pool.inv_start listing.reverse n) W schedule
  rw [← hrun] at hinv
  refine ⟨?_, hinv.drained⟩
  have h1 := congrArg List.length hinv.stack
  have h2 := hinv.perm.length_eq
  have h3 := hinv.count
  have h4 := congrArg List.length hinv.cerr_eq
  have h5 := Pool.held_of_allTerminated hterm
  simp only [h5, List.length_append, List.length_nil, List.length_reverse,
    List.length_replicate] at h1 h2 h4
  omega

/-- Witness for C4: six identifiers, three workers, the request for 3 times out. -/
theorem accounting_witness :
    ∃ s, Application.mainWith 3 (World.timeouts [1, 2, 3, 4, 5, 6] [3])
        [0, 1, 2, 0, 1, 2, 0, 1, 2, 0, 1, 2, 1, 2] = .returned 0 s ∧
      s.cout.length + s.cerr.length + s.lost.length + s.collection.ids_.length = 6 ∧
      (WorkerState.finished ∈ s.workers → s.collection.ids_ = []) :=
  ⟨_, rfl, (accounting [1, 2, 3, 4, 5, 6] (World.timeouts [1, 2, 3, 4, 5, 6] [3]) 3
    [0, 1, 2, 0, 1, 2, 0, 1, 2, 0, 1, 2, 1, 2] ⟨_, rfl, listingBody_lists _⟩).1 0 _ rfl⟩

/-! ## Every request succeeds -/

theorem carries_unique {r : Option Body} {i j : Nat} (hi : Carries r i) (hj : Carries r j) :
    i = j := by
  obtain ⟨v, t, h1, -, h3⟩ := hi
  obtain ⟨v2, t2, k1, -, k3⟩ := hj
  rw [h1] at k1
  simp only [Option.some.injEq, Body.mk.injEq] at k1
  subst k1
  rw [h3] at k3
  simp only [Option.some.injEq, JsonObject.mk.injEq] at k3
  exact k3.1

/-- C5: when every item request is answered with a well-formed response carrying the
identifier asked for and a title, then for every listing, every pool of at least one
worker and every schedule after which `main` returns, `main` returns 0, there are
exactly as many lines as listed identifiers, the identifiers of the lines are the
listed identifiers (each occurrence in exactly one line), and no diagnostic is
written; and every schedule can be continued to one after which `main` returns. -/
theorem all_succeed (listing : List Nat) (W : World) (n : Nat) (schedule : List Nat)
    (hn : 1 ≤ n) (hlist : W.lists listing) (hW : ∀ k w id, Carries (W.item k w id) id) :
    (∀ code s, Application.mainWith n W schedule = .returned code s →
      code = 0 ∧ s.cout.length = listing.length ∧
        (s.cout.map SuccessLine.story_id).Perm listing ∧ s.cerr = []) ∧
      (∃ s, Application.mainWith n W (schedule ++ Pool.drain n listing.length) =
        .returned 0 s) := by
  refine ⟨fun code s hs => ?_, Application.returns_of_lists hlist n schedule⟩
  obtain ⟨hcode, hrun, hterm⟩ := Application.mainWith_returned hlist hs
  have hinv := Pool.inv_run (Pool.inv_start listing.reverse n) W schedule
  obtain ⟨log, hlog⟩ := Pool.logged_run (Pool.logged_start W ⟨listing.reverse⟩ n) schedule
  rw [← hrun] at hinv hlog
  obtain ⟨hd, hl, hc⟩ := Pool.logged_no_failure hlog (fun k w id => ⟨id, hW k w id⟩)
  have hecho : W.echoes := fun k w id i hi => carries_unique hi (hW k w id)
  have hheld := Pool.held_of_allTerminated hterm
  have hfin := Pool.finished_of_allTerminated hterm (by simp [hd, hl, hinv.size]; omega)
  have hst := hinv.stack
  rw [hinv.drained hfin, List.append_nil] at hst
  have hperm := hinv.perm
  rw [hheld, List.append_nil, hst] at hperm
  have hreq := Pool.requests_perm hlog hecho
  rw [hd, hl, List.append_nil, List.append_nil] at hreq
  have hfinal : (s.cout.map SuccessLine.story_id).Perm listing :=
    hreq.symm.trans (hperm.trans (List.reverse_perm listing))
  refine ⟨hcode, ?_, hfinal, ?_⟩
  · simpa using hfinal.length_eq
  · simpa [hd] using hinv.cerr_eq

/-- Witness for C5: the listing `[7, 8, 9]` with eight workers. -/
theorem all_succeed_witness :
    ∃ s, Application.main (World.echo [7, 8, 9])
        [0, 1, 2, 0, 1, 2, 0, 1, 2, 3, 4, 5, 6, 7] = .returned 0 s ∧
      s.cout.length = 3 ∧ (s.cout.map SuccessLine.story_id).Perm [7, 8, 9] ∧ s.cerr = [] :=
  ⟨_, rfl, ((all_succeed [7, 8, 9] (World.echo [7, 8, 9]) 8
    [0, 1, 2, 0, 1, 2, 0, 1, 2, 3, 4, 5, 6, 7] (by decide) (World.echo_lists _)
    (fun _ _ id => ⟨_, _, rfl, rfl, rfl⟩)).1 0 _ rfl).2⟩

/-! ## One request fails -/

theorem all_eq_length_count {x : Nat} (l : List Nat) (h : ∀ a ∈ l, a = x) :
    l.length = l.count x := by
  induction l with
  | nil => rfl
  | cons a t ih =>
    have ha := h a (List.mem_cons_self _ _)
    subst ha
    simp [ih (fun b hb => h b (List.mem_cons_of_mem _ hb))]

/-- Counterexample to C6 as stated: with a pool of one worker, the listing
`[1, 2, 3, 4, 5, 6]` and a time-out on 3, the worker stops on 3 and the identifiers 2
and 1 are never consumed. -/
theorem one_timeout_counterexample :
    Application.mainWith 1 (World.timeouts [1, 2, 3, 4, 5, 6] [3]) [0, 0, 0, 0, 0, 0, 0, 0] =
      .returned 0
        { collection := ⟨[2, 1]⟩
          workers := [.raised 3]
          cout := [⟨6, "t", 100⟩, ⟨5, "t", 100⟩, ⟨4, "t", 100⟩]
          cerr := []
          calls := [(0, some 6), (0, some 5), (0, some 4), (0, some 3)]
          requests := [6, 5, 4, 3] } := by
  decide

/-- C6, amended: in a pool of at least two workers, when the identifier `x` occurs once
in the listing, every request for `x` fails by transport error and every other request
is answered with the identifier asked for and a title, then for every schedule after
which `main` returns, the lines carry exactly the other listed identifiers, once each,
nothing is written to the error stream, exactly one worker ended by the exception, on
`x`, every other worker ended on the empty queue, and the queue is empty; and every
schedule can be continued to one after which `main` returns. -/
theorem one_timeout (listing : List Nat) (W : World) (n : Nat) (schedule : List Nat)
    (x : Nat) (hn : 2 ≤ n) (hlist : W.lists listing)
    (hx : listing.count x = 1) (hbad : ∀ k w, W.item k w x = none)
    (hgood : ∀ k w id, id ≠ x → Carries (W.item k w id) id) :
    (∀ code s, Application.mainWith n W schedule = .returned code s →
      (s.cout.map SuccessLine.story_id).Perm (listing.erase x) ∧ s.cerr = [] ∧
        s.lost = [x] ∧ s.workers.count .finished + 1 = n ∧ s.collection.ids_ = []) ∧
      (∃ s, Application.mainWith n W (schedule ++ Pool.drain n listing.length) =
        .returned 0 s) := by
  refine ⟨fun code s hs => ?_, Application.returns_of_lists hlist n schedule⟩
  obtain ⟨hcode, hrun, hterm⟩ := Application.mainWith_returned hlist hs
  have hinv := Pool.inv_run (Pool.inv_start listing.reverse n) W schedule
  obtain ⟨log, hlog⟩ := Pool.logged_run (Pool.logged_start W ⟨listing.reverse⟩ n) schedule
  rw [← hrun] at hinv hlog
  -- what the log can contain
  have hcar : ∀ k w id i, Carries (W.item k w id) i → id ≠ x ∧ i = id := by
    intro k w id i hi
    by_cases hid : id = x
    · subst hid
      obtain ⟨v, t, h1, -⟩ := hi
      rw [hbad] at h1
      simp at h1
    · exact ⟨hid, carries_unique hi (hgood k w id hid)⟩
  have hecho : W.echoes := fun k w id i hi => (hcar k w id i hi).2
  have hentry : ∀ p ∈ log, (p.1 = x ∧ p.2 = .raised) ∨ (p.1 ≠ x ∧ ∃ l, p.2 = .line l) := by
    intro p hp
    obtain ⟨k, w, hb⟩ := hlog.answered p hp
    by_cases hid : p.1 = x
    · left
      refine ⟨hid, ?_⟩
      rw [hb, hid, hbad]
      rfl
    · right
      obtain ⟨t, ht⟩ := Worker.body_of_carries (hgood k w p.1 hid) (W.tid w)
      exact ⟨hid, _, hb.trans ht⟩
  have hd : s.diagnosed = [] := by
    have : log.filterMap diagnosedOf = [] := by
      rw [List.filterMap_eq_nil_iff]
      intro p hp
      rcases hentry p hp with ⟨-, h⟩ | ⟨-, l, h⟩ <;> simp [diagnosedOf, h]
    simpa [this] using hlog.diagnosed_perm
  have hlostx : ∀ a ∈ s.lost, a = x := by
    intro a ha
    have := hlog.lost_perm.subset ha
    rw [List.mem_filterMap] at this
    obtain ⟨p, hp, hpa⟩ := this
    rcases hentry p hp with ⟨h1, h2⟩ | ⟨-, l, h⟩
    · simp [lostOf, h2] at hpa
      rw [← hpa, h1]
    · simp [lostOf, h] at hpa
  have hlinex : x ∉ s.cout.map SuccessLine.story_id := by
    intro hmem
    rw [hlog.cout_eq, List.mem_map] at hmem
    obtain ⟨l, hl, hlx⟩ := hmem
    rw [List.mem_filterMap] at hl
    obtain ⟨p, hp, hpl⟩ := hl
    have hpl2 : p.2 = .line l := by
      cases h : p.2 <;> simp [h, Outcome.lineOf] at hpl
      rw [hpl]
    obtain ⟨k, w, hb⟩ := hlog.answered p hp
    have := hcar k w p.1 l.story_id (Worker.body_line (hb.symm.trans hpl2)).1
    exact this.1 (this.2.symm.trans hlx)
  -- counting occurrences of x
  have hreq := Pool.requests_perm hlog hecho
  rw [hd, List.append_nil] at hreq
  have hheld := Pool.held_of_allTerminated hterm
  have hperm := hinv.perm
  rw [hheld, List.append_nil] at hperm
  have hst := hinv.stack
  have hcount : s.lost.count x + s.collection.ids_.count x = 1 := by
    have e1 := hreq.count_eq x
    have e2 := hperm.count_eq x
    have e3 := congrArg (List.count x) hst
    rw [List.count_append, List.count_reverse, hx] at e3
    rw [List.count_append, List.count_eq_zero_of_not_mem hlinex] at e1
    omega
  have hlen := all_eq_length_count s.lost hlostx
  have hfin := Pool.finished_of_allTerminated hterm
    (by rw [hd, hinv.size, List.length_nil]; omega)
  have hempty := hinv.drained hfin
  rw [hempty, List.count_nil] at hcount
  have hlost : s.lost = [x] := by
    have h1 : s.lost.length = 1 := by omega
    obtain ⟨a, ha⟩ := List.length_eq_one.1 h1
    rw [ha]
    rw [ha] at hlostx
    rw [hlostx a (List.mem_singleton_self a)]
  rw [hempty, List.append_nil] at hst
  refine ⟨?_, ?_, hlost, ?_, hempty⟩
  · have hall : (s.cout.map SuccessLine.story_id ++ [x]).Perm listing := by
      rw [← hlost]
      exact hreq.symm.trans (hperm.trans (hst ▸ List.reverse_perm listing))
    have h2 : (x :: s.cout.map SuccessLine.story_id).Perm listing :=
      (List.perm_append_singleton x _).symm.trans hall
    simpa using h2.erase x
  · simpa [hd] using hinv.cerr_eq
  · have := (terminated_length s.workers hterm).1
    simp only [Pool.diagnosed, Pool.lost] at hd hlost
    rw [hd, hlost, hinv.size] at this
    simp at this
    omega

/-- Witness for C6: three workers, the listing `[1, 2, 3, 4, 5, 6]`, a time-out on 3. -/
theorem one_timeout_witness :
    ∃ s, Application.mainWith 3 (World.timeouts [1, 2, 3, 4, 5, 6] [3])
        [0, 1, 2, 0, 1, 2, 0, 1, 2, 0, 1, 2, 1, 2] = .returned 0 s ∧
      (s.cout.map SuccessLine.story_id).Perm [1, 2, 4, 5, 6] ∧ s.cerr = [] ∧
      s.lost = [3] ∧ s.workers.count .finished + 1 = 3 ∧ s.collection.ids_ = [] :=
  ⟨_, rfl, (one_timeout [1, 2, 3, 4, 5, 6] (World.timeouts [1, 2, 3, 4, 5, 6] [3]) 3
    [0, 1, 2, 0, 1, 2, 0, 1, 2, 0, 1, 2, 1, 2] 3 (by decide) ⟨_, rfl, listingBody_lists _⟩
    (by decide) (fun _ _ => rfl)
    (fun _ _ id hid => ⟨⟨false, 1, none, some ⟨some id, some "t"⟩⟩, "t",
      by simp [World.timeouts, hid, itemBody], rfl, rfl⟩)).1 0 _ rfl⟩

/-! ## A worker that has left `run` -/

theorem Pool.step_callsOf (W : World) (s : Pool) {v w : Nat} (h : v ≠ w) :
    (s.step W v).callsOf w = s.callsOf w := by
  have hb : (v == w) = false := by simpa using h
  unfold Pool.step
  split
  · split <;> simp [Pool.callsOf, List.filter_append, List.filter_cons, hb]
  · split <;> simp [Pool.callsOf]
  · rfl

theorem Pool.run_callsOf (W : World) (s : Pool) (schedule : List Nat) {w : Nat}
    {st : WorkerState} (h : s.workers[w]? = some st) (ht : st.terminated = true) :
    (s.run W schedule).callsOf w = s.callsOf w := by
  induction schedule generalizing s with
  | nil => rfl
  | cons v vs ih =>
    rw [Pool.run_cons, ih (s.step W v) (Pool.step_stays W s v h ht)]
    by_cases hv : v = w
    · subst hv
      rw [Pool.step_terminated W s h ht]
    · exact Pool.step_callsOf W s hv

theorem Pool.step_suffix (W : World) (s : Pool) (w : Nat) :
    (s.step W w).collection.ids_ <:+ s.collection.ids_ := by
  apply Pool.step_cases W s w (fun t => t.collection.ids_ <:+ s.collection.ids_)
  · exact List.suffix_refl _
  · intro l1 l2 id rest _ _ hc
    rw [hc]
    exact List.suffix_cons id rest
  · intro l1 l2 _ _ _
    exact List.suffix_refl _
  · intro l1 l2 id l _ _ _
    exact List.suffix_refl _
  · intro l1 l2 id _ _ _
    exact List.suffix_refl _
  · intro l1 l2 id _ _ _
    exact List.suffix_refl _

theorem Pool.run_suffix (W : World) (s : Pool) (schedule : List Nat) :
    (s.run W schedule).collection.ids_ <:+ s.collection.ids_ := by
  induction schedule generalizing s with
  | nil => exact List.suffix_refl _
  | cons v vs ih => exact (ih (s.step W v)).trans (Pool.step_suffix W s v)

theorem Pool.step_holding (W : World) (s : Pool) {w id : Nat}
    (hw : s.workers[w]? = some (.holding id)) :
    (s.step W w).collection = s.collection ∧ (s.step W w).calls = s.calls ∧
      (s.step W w).requests = s.requests ++ [id] ∧
      ((∀ l, Worker.body (W.item s.requests.length w id) (W.tid w) = .line l →
          (s.step W w).cout = s.cout ++ [l] ∧ (s.step W w).cerr = s.cerr ∧
            (s.step W w).workers[w]? = some .ready) ∧
        (Worker.body (W.item s.requests.length w id) (W.tid w) = .diagnostic →
          (s.step W w).cout = s.cout ∧ (s.step W w).cerr = s.cerr ++ [diagnosticText] ∧
            (s.step W w).workers[w]? = some (.diagnosed id)) ∧
        (Worker.body (W.item s.requests.length w id) (W.tid w) = .raised →
          (s.step W w).cout = s.cout ∧ (s.step W w).cerr = s.cerr ∧
            (s.step W w).workers[w]? = some (.raised id))) := by
  have hlt : w < s.workers.length := by
    by_contra hge
    rw [List.getElem?_eq_none (by omega)] at hw
    simp at hw
  unfold Pool.step
  simp only [hw]
  split <;> simp_all [List.getElem?_set_self hlt]

/-! ## Malformed item responses -/

/-- Counterexample to C7 as stated: with the listing `[42]` and a response for 42 that
has no title, the worker ends by the exception of `getValue` and nothing is written to
the error stream. -/
theorem malformed_response_counterexample :
    Application.main (World.untitled [42]) [0, 0, 1, 2, 3, 4, 5, 6, 7] =
      .returned 0
        { collection := ⟨[]⟩
          workers := [.raised 42, .finished, .finished, .finished, .finished, .finished,
            .finished, .finished]
          cout := []
          cerr := []
          calls := [(0, some 42), (1, none), (2, none), (3, none), (4, none), (5, none),
            (6, none), (7, none)]
          requests := [42] } := by
  decide

/-- C7, amended: when a worker processes a popped identifier whose response parses to a
value of size other than one, it writes exactly one diagnostic line and returns; when
the value has size one and is an object whose title cannot be obtained, it writes no
diagnostic line and ends by the exception.  In both cases it writes no line, leaves the
queue as it is, and under every later schedule stays terminated, makes no further call
of `Next`, and the queue only loses elements. -/
theorem malformed_response (W : World) (s : Pool) (w id : Nat) (v : Var)
    (schedule : List Nat) (hw : s.workers[w]? = some (.holding id))
    (hr : W.item s.requests.length w id = some ⟨some v⟩)
    (hbad : v.size ≠ 1 ∨ ∃ o, v.object = some o ∧ o.title = none) :
    (v.size ≠ 1 → (s.step W w).cerr = s.cerr ++ [diagnosticText] ∧
        (s.step W w).workers[w]? = some (.diagnosed id)) ∧
      (v.size = 1 → (s.step W w).cerr = s.cerr ∧
        (s.step W w).workers[w]? = some (.raised id)) ∧
      (s.step W w).cout = s.cout ∧ (s.step W w).collection = s.collection ∧
      ((s.step W w).run W schedule).workers[w]? = (s.step W w).workers[w]? ∧
      ((s.step W w).run W schedule).callsOf w = s.callsOf w ∧
      ((s.step W w).run W schedule).collection.ids_ <:+ s.collection.ids_ := by
  obtain ⟨h1, h2, -, -, h4, h5⟩ := Pool.step_holding W s hw
  have hsuf := Pool.run_suffix W (s.step W w) schedule
  rw [h1] at hsuf
  have hcalls : (s.step W w).callsOf w = s.callsOf w := by
    simp only [Pool.callsOf, h2]
  by_cases hsz : v.size = 1
  · have hb : Worker.body (W.item s.requests.length w id) (W.tid w) = .raised := by
      rcases hbad with h | ⟨o, ho, ht⟩
      · exact absurd hsz h
      · simp only [Worker.body, hr, hsz, ho, ht]
        cases o.id <;> simp
    obtain ⟨a, b, c⟩ := h5 hb
    refine ⟨fun h => absurd hsz h, fun _ => ⟨b, c⟩, a, h1, ?_, ?_, hsuf⟩
    · rw [Pool.run_stays W _ schedule c rfl, c]
    · rw [Pool.run_callsOf W _ schedule c rfl, hcalls]
  · have hb : Worker.body (W.item s.requests.length w id) (W.tid w) = .diagnostic := by
      simp [Worker.body, hr, hsz]
    obtain ⟨a, b, c⟩ := h4 hb
    refine ⟨fun _ => ⟨b, c⟩, fun h => absurd h hsz, a, h1, ?_, ?_, hsuf⟩
    · rw [Pool.run_stays W _ schedule c rfl, c]
    · rw [Pool.run_callsOf W _ schedule c rfl, hcalls]

/-- Witness for C7: worker 0 of two holds 42, whose response has no title. -/
theorem malformed_response_witness :
    (((Pool.start ⟨[42]⟩ 2).step (World.untitled [42]) 0).step (World.untitled [42]) 0).cerr
        = [] ∧
      (((Pool.start ⟨[42]⟩ 2).step (World.untitled [42]) 0).step (World.untitled [42])
        0).workers[0]? = some (.raised 42) :=
  (malformed_response (World.untitled [42]) ((Pool.start ⟨[42]⟩ 2).step (World.untitled [42]) 0)
    0 42 ⟨false, 1, none, some ⟨some 42, none⟩⟩ [1, 1, 0] rfl rfl
    (Or.inr ⟨_, rfl, rfl⟩)).2.1 rfl

/-! ## The listing response -/

theorem IdCollection.pushAll_ok {items : List (Option Nat)} {acc ids : List Nat}
    (h : IdCollection.pushAll items acc = .ok ids) :
    ∃ listing : List Nat, items = listing.map some := by
  induction items generalizing acc with
  | nil => exact ⟨[], rfl⟩
  | cons a t ih =>
    cases a with
    | none => simp [IdCollection.pushAll] at h
    | some id =>
      obtain ⟨l, hl⟩ := @ih (id :: acc) (by simpa [IdCollection.pushAll] using h)
      exact ⟨id :: l, by simp [hl]⟩

theorem IdCollection.pushAll_none {items : List (Option Nat)} (acc : List Nat)
    (h : none ∈ items) : IdCollection.pushAll items acc = .error .library := by
  induction items generalizing acc with
  | nil => simp at h
  | cons a t ih =>
    cases a with
    | none => rfl
    | some id =>
      simp only [List.mem_cons, reduceCtorEq, false_or] at h
      simpa [IdCollection.pushAll] using ih (id :: acc) h

theorem IdCollection.new_ok {json : Body} {c : IdCollection}
    (h : IdCollection.new json = .ok c) : ∃ listing, json.lists listing := by
  unfold IdCollection.new at h
  split at h
  · simp at h
  · next objects hp =>
    split at h
    · simp at h
    · next hcond =>
      split at h
      · simp at h
      · next jsonArray ha =>
        split at h
        · simp at h
        · next ids hpush =>
          obtain ⟨listing, hl⟩ := IdCollection.pushAll_ok hpush
          simp only [Bool.or_eq_true, Bool.not_eq_true', bne_iff_ne, ne_eq, not_or,
            Bool.not_eq_false, Decidable.not_not] at hcond
          exact ⟨listing, objects, hp, hcond.1, hcond.2, by rw [ha, hl]⟩


theorem arrayBody_unsigned (listing : List Nat) (h : ∀ k ∈ listing, k < 4294967296) :
    arrayBody (listing.map .unsigned) = listingBody listing := by
  have : (listing.map Element.unsigned).map Element.convert = listing.map some := by
    induction listing with
    | nil => rfl
    | cons a t ih =>
      have ha := h a (List.mem_cons_self _ _)
      simp only [List.map_cons, Element.convert, if_pos ha,
        ih (fun k hk => h k (List.mem_cons_of_mem _ hk))]
  simp only [arrayBody, listingBody, this]

/-! ## The exit code -/

/-- C9: when the listing response is accepted, `main` never ends by an exception once
the workers are started, the only value it returns is 0 whatever happened to the
workers, and it does return: after any schedule, letting each worker in turn run long
enough makes all of them terminate and `main` return 0. -/
theorem exit_code (json : Body) (c : IdCollection) (W : World) (n : Nat)
    (schedule : List Nat) (htop : W.topstories = some json)
    (hnew : IdCollection.new json = .ok c) :
    (∀ code s, Application.mainWith n W schedule = .returned code s → code = 0) ∧
      (∀ e, Application.mainWith n W schedule ≠ .raised e) ∧
      (∃ s, Application.mainWith n W (schedule ++ Pool.drain n c.ids_.length) =
          .returned 0 s ∧ s.allTerminated = true) := by
  refine ⟨?_, ?_, ?_⟩
  · intro code s hs
    rw [Application.mainWith_eq htop hnew] at hs
    split at hs
    · simp only [MainResult.returned.injEq] at hs
      exact hs.1.symm
    · simp at hs
  · intro e hs
    rw [Application.mainWith_eq htop hnew] at hs
    split at hs <;> simp at hs
  · exact Application.returns_after_drain htop hnew n schedule

/-- Witness for C9: three identifiers, the request for 2 times out, eight workers. -/
theorem exit_code_witness :
    (∀ code s, Application.mainWith 8 (World.timeouts [1, 2, 3] [2]) [0, 1, 0, 1] =
        .returned code s → code = 0) ∧
      (∀ e, Application.mainWith 8 (World.timeouts [1, 2, 3] [2]) [0, 1, 0, 1] ≠ .raised e) ∧
      (∃ s, Application.mainWith 8 (World.timeouts [1, 2, 3] [2])
          ([0, 1, 0, 1] ++ Pool.drain 8 3) = .returned 0 s ∧ s.allTerminated = true) :=
  exit_code (listingBody [1, 2, 3]) ⟨[3, 2, 1]⟩ (World.timeouts [1, 2, 3] [2]) 8 [0, 1, 0, 1]
    rfl rfl

/-! ## The text of a line -/

/-- Counterexample to C10 as stated: the worker pops and requests 7, the response is
well formed and carries 8, and the line shows 8. -/
theorem success_line_counterexample :
    Application.main (World.shifted [7]) [0, 0, 0, 1, 2, 3, 4, 5, 6, 7] =
        .returned 0
          { collection := ⟨[]⟩
            workers := List.replicate 8 .finished
            cout := [⟨8, "x", 100⟩]
            cerr := []
            calls := [(0, some 7), (0, none), (1, none), (2, none), (3, none), (4, none),
              (5, none), (6, none), (7, none)]
            requests := [7] } ∧
      (⟨8, "x", 100⟩ : SuccessLine).text = "8 : x (TID 100)" := by
  decide

/-- C10, amended: when a worker with thread identifier `W.tid w` processes the popped
identifier `id` and the response is well formed with identifier field `i` and title
`t`, it writes exactly one line, whose text is the decimal of `i`, " : ", `t`, " (TID ",
the decimal of the thread identifier and ")"; the identifier shown is the one carried
by the response, which is the popped identifier when the response carries it. -/
theorem success_line (W : World) (s : Pool) (w id i : Nat) (t : String) (v : Var)
    (hw : s.workers[w]? = some (.holding id))
    (hr : W.item s.requests.length w id = some ⟨some v⟩) (hsz : v.size = 1)
    (ho : v.object = some ⟨some i, some t⟩) :
    (s.step W w).requests = s.requests ++ [id] ∧
      (s.step W w).cout.map SuccessLine.text = s.cout.map SuccessLine.text ++
        [Nat.repr i ++ " : " ++ t ++ " (TID " ++ Nat.repr (W.tid w) ++ ")"] ∧
      (s.step W w).cerr = s.cerr ∧
      (i = id → (s.step W w).cout.map SuccessLine.text = s.cout.map SuccessLine.text ++
        [Nat.repr id ++ " : " ++ t ++ " (TID " ++ Nat.repr (W.tid w) ++ ")"]) := by
  obtain ⟨-, -, h3, h4, -, -⟩ := Pool.step_holding W s hw
  have hb : Worker.body (W.item s.requests.length w id) (W.tid w) =
      .line ⟨i, t, W.tid w⟩ := by
    simp [Worker.body, hr, hsz, ho]
  obtain ⟨a, b, -⟩ := h4 _ hb
  have htext : (s.step W w).cout.map SuccessLine.text = s.cout.map SuccessLine.text ++
      [Nat.repr i ++ " : " ++ t ++ " (TID " ++ Nat.repr (W.tid w) ++ ")"] := by
    rw [a, List.map_append]
    rfl
  exact ⟨h3, htext, b, fun h => h ▸ htext⟩

/-- Witness for C10: worker 0 holds 7 and the response carries 7 with the title "t". -/
theorem success_line_witness :
    (((Pool.start ⟨[7]⟩ 1).step (World.echo [7]) 0).step (World.echo [7]) 0).cout.map
        SuccessLine.text = ["7 : t (TID 100)"] :=
  (success_line (World.echo [7]) ((Pool.start ⟨[7]⟩ 1).step (World.echo [7]) 0) 0 7 7 "t"
    ⟨false, 1, none, some ⟨some 7, some "t"⟩⟩ rfl rfl rfl rfl).2.1

/-! ## Steps at the head of the loop and the count of steps -/

theorem Pool.fuel_other (W : World) (s : Pool) {v w : Nat} (h : v ≠ w) :
    (s.step W v).fuel w ≤ s.fuel w := by
  have h1 := Pool.step_other W s h
  have h2 := (Pool.step_length W s v).2
  unfold Pool.fuel
  rw [h1]
  split <;> omega

theorem Pool.fuel_count (W : World) (s : Pool) (w : Nat) (schedule : List Nat) :
    (s.run W schedule).fuel w ≤ s.fuel w - schedule.count w := by
  induction schedule generalizing s with
  | nil => simp [Pool.run]
  | cons v vs ih =>
    rw [Pool.run_cons]
    have h1 := ih (s.step W v)
    by_cases hv : v = w
    · subst hv
      have h2 := Pool.fuel_step W s v
      simp only [List.count_cons_self]
      omega
    · have h2 := Pool.fuel_other W s hv
      rw [List.count_cons_of_ne (fun h => hv h.symm)]
      omega

theorem Pool.step_ready (W : World) (s : Pool) {w : Nat} (hw : s.workers[w]? = some .ready) :
    (s.step W w).requests = s.requests ∧ (s.step W w).cout = s.cout ∧
      (s.step W w).cerr = s.cerr ∧
      (s.collection.ids_ = [] →
        (s.step W w).workers[w]? = some .finished ∧ (s.step W w).collection = s.collection ∧
          (s.step W w).calls = s.calls ++ [(w, none)]) ∧
      (∀ top rest, s.collection.ids_ = top :: rest →
        (s.step W w).workers[w]? = some (.holding top) ∧
          (s.step W w).collection.ids_ = rest ∧
          (s.step W w).calls = s.calls ++ [(w, some top)]) := by
  have hlt : w < s.workers.length := by
    by_contra hge
    rw [List.getElem?_eq_none (by omega)] at hw
    simp at hw
  unfold Pool.step
  simp only [hw]
  cases hc : s.collection.ids_ with
  | nil => simp [IdCollection.Next, hc, List.getElem?_set_self hlt]
  | cons id rest => simp [IdCollection.Next, hc, List.getElem?_set_self hlt]

theorem Pool.requests_le {ids0 : List Nat} {n : Nat} {s : Pool} (h : s.Inv ids0 n) :
    s.requests.length + s.held.length + s.collection.ids_.length = ids0.length := by
  have h1 := congrArg List.length h.stack
  have h2 := h.perm.length_eq
  simp only [List.length_append] at h1 h2
  omega

/-! ## Lines on standard output -/

theorem SuccessLine.join_pieces (l : SuccessLine) : String.join l.pieces = l.text ++ "\n" := by
  simp [SuccessLine.pieces, SuccessLine.text, String.join, String.append_assoc]

theorem Output.run_alone (ps : List String) (st : List (Nat × String)) :
    Output.run ⟨[ps], st⟩ (List.replicate ps.length 0) =
      ⟨[[]], st ++ ps.map (fun p => (0, p))⟩ := by
  induction ps generalizing st with
  | nil => simp [Output.run]
  | cons p t ih =>
    have hstep : Output.step ⟨[p :: t], st⟩ 0 = ⟨[t], st ++ [(0, p)]⟩ := rfl
    rw [List.length_cons, List.replicate_succ, Output.run, List.foldl_cons, hstep]
    have := ih (st ++ [(0, p)])
    rw [Output.run] at this
    rw [this]
    simp

theorem Output.alone (l : SuccessLine) :
    ((Output.start [l]).run (List.replicate 7 0)).text = l.text ++ "\n" ∧
      ((Output.start [l]).run (List.replicate 7 0)).intact = true := by
  have hs : (Output.start [l]).run (List.replicate 7 0) =
      ⟨[[]], [] ++ l.pieces.map (fun p => (0, p))⟩ :=
    Output.run_alone l.pieces []
  constructor
  · rw [← SuccessLine.join_pieces, Output.text, hs, List.nil_append, List.map_map]
    simp [Function.comp_def]
  · rw [hs]
    simp [Output.intact, SuccessLine.pieces, runHeads]

/-- C11, the program at the failing input: with the listing `[1, 2]` workers 0 and 1 of
the eight hold 2 and 1, both requests succeed, and both reach line 167.  When their
insertions alternate, the pieces of the two lines are mixed on standard output; only
when one worker makes its seven insertions before the other do the lines come out
whole. -/
theorem interleaved_output :
    (Application.main (World.echo [1, 2]) [0, 1]).pool.map (fun s => s.workers.take 2) =
        some [.holding 2, .holding 1] ∧
      Worker.body ((World.echo [1, 2]).item 0 0 2) ((World.echo [1, 2]).tid 0) =
        .line ⟨2, "t", 100⟩ ∧
      Worker.body ((World.echo [1, 2]).item 1 1 1) ((World.echo [1, 2]).tid 1) =
        .line ⟨1, "t", 101⟩ ∧
      ((Output.start [⟨2, "t", 100⟩, ⟨1, "t", 101⟩]).run
        [0, 1, 0, 1, 0, 1, 0, 1, 0, 1, 0, 1, 0, 1]).text =
        "21 :  : tt (TID  (TID 100101))\n\n" ∧
      ((Output.start [⟨2, "t", 100⟩, ⟨1, "t", 101⟩]).run
        [0, 1, 0, 1, 0, 1, 0, 1, 0, 1, 0, 1, 0, 1]).intact = false ∧
      ((Output.start [⟨2, "t", 100⟩, ⟨1, "t", 101⟩]).run
        [0, 0, 0, 0, 0, 0, 0, 1, 1, 1, 1, 1, 1, 1]).text =
        "2 : t (TID 100)\n1 : t (TID 101)\n" ∧
      ((Output.start [⟨2, "t", 100⟩, ⟨1, "t", 101⟩]).run
        [0, 0, 0, 0, 0, 0, 0, 1, 1, 1, 1, 1, 1, 1]).intact = true := by
  decide

/-! ## The queue only shrinks -/

theorem Pool.step_none (W : World) (s : Pool) {w : Nat} (h : s.workers[w]? = none) :
    s.step W w = s := by
  unfold Pool.step
  rw [h]

theorem Pool.step_ends (W : World) (s : Pool) {w : Nat} {st : WorkerState}
    (h : (s.step W w).workers[w]? = some st) (ht : st.terminated = true) :
    (s.step W w).collection = s.collection := by
  cases hw : s.workers[w]? with
  | none => rw [Pool.step_none W s hw]
  | some st0 =>
    cases st0 with
    | ready =>
      obtain ⟨-, -, -, h4, h5⟩ := Pool.step_ready W s hw
      cases hc : s.collection.ids_ with
      | nil => exact (h4 hc).2.1
      | cons top rest =>
        rw [(h5 top rest hc).1] at h
        simp only [Option.some.injEq] at h
        subst h
        simp [WorkerState.terminated] at ht
    | holding id => exact (Pool.step_holding W s hw).1
    | finished => rw [Pool.step_terminated W s hw rfl]
    | diagnosed id => rw [Pool.step_terminated W s hw rfl]
    | raised id => rw [Pool.step_terminated W s hw rfl]

/-- Counterexample to C12 as stated: eight workers, the listing `[1, 2, 3]`, a time-out
on 3.  Worker 0 pops 3 and leaves the queue `[2, 1]`; worker 1 pops 2; then the step of
worker 0 ends in error, it has made no other call of `Next`, and the queue is `[1]`, not
what it was after the last pop of worker 0. -/
theorem queue_frame_counterexample :
    (Application.main (World.timeouts [1, 2, 3] [3]) [0]).pool.map
        (fun s => (s.workers[0]?, s.callsOf 0, s.collection.ids_)) =
      some (some (.holding 3), [some 3], [2, 1]) ∧
    (Application.main (World.timeouts [1, 2, 3] [3]) [0, 1, 0]).pool.map
        (fun s => (s.workers[0]?, s.callsOf 0, s.collection.ids_)) =
      some (some (.raised 3), [some 3], [1]) := by
  decide

/-- C12, amended: nothing is ever pushed onto the queue after the construction.  In
every state the pool reaches, the queue holds, from the bottom up, an initial part of
the listing; a successful call of `Next` removes exactly the top element and leaves the
rest unchanged; a step after which the worker has left `run`, by error or normally,
leaves the queue exactly as it was before that step; and under every further schedule
the queue is a bottom part of what it was, so that since a worker's last pop only the
pops of the other workers have changed it. -/
theorem queue_frame (listing : List Nat) (W : World) (n : Nat) (schedule more : List Nat)
    (s : Pool) (hlist : W.lists listing)
    (hs : (Application.mainWith n W schedule).pool = some s) :
    s.collection.ids_.reverse <+: listing ∧
      (∀ w top rest, s.workers[w]? = some .ready → s.collection.ids_ = top :: rest →
        (s.step W w).collection.ids_ = rest ∧
          (s.step W w).calls = s.calls ++ [(w, some top)]) ∧
      (∀ w st, (s.step W w).workers[w]? = some st → st.terminated = true →
        (s.step W w).collection = s.collection) ∧
      (s.run W more).collection.ids_ <:+ s.collection.ids_ := by
  rw [Application.mainWith_pool hlist] at hs
  simp only [Option.some.injEq] at hs
  have hinv := Pool.inv_run (Pool.inv_start listing.reverse n) W schedule
  rw [hs] at hinv
  refine ⟨?_, ?_, ?_, Pool.run_suffix W s more⟩
  · have hsuf : s.collection.ids_ <:+ listing.reverse := ⟨_, hinv.stack⟩
    have := List.reverse_prefix.2 hsuf
    rwa [List.reverse_reverse] at this
  · intro w top rest hw hc
    obtain ⟨-, -, -, -, h5⟩ := Pool.step_ready W s hw
    exact ⟨(h5 top rest hc).2.1, (h5 top rest hc).2.2⟩
  · intro w st h ht
    exact Pool.step_ends W s h ht

/-- Witness for C12: two workers, the listing `[1, 2, 3]`, a time-out on 3; after the
pops of both workers, worker 0 takes its failing step. -/
theorem queue_frame_witness :
    ((Pool.start ⟨[1, 2, 3].reverse⟩ 2).run (World.timeouts [1, 2, 3] [3])
        [0, 1]).collection.ids_.reverse <+: [1, 2, 3] ∧
      (((Pool.start ⟨[1, 2, 3].reverse⟩ 2).run (World.timeouts [1, 2, 3] [3])
        [0, 1]).step (World.timeouts [1, 2, 3] [3]) 0).collection =
        ((Pool.start ⟨[1, 2, 3].reverse⟩ 2).run (World.timeouts [1, 2, 3] [3])
          [0, 1]).collection :=
  have h := queue_frame [1, 2, 3] (World.timeouts [1, 2, 3] [3]) 2 [0, 1] [0] _
    ⟨_, rfl, listingBody_lists _⟩
    (Application.mainWith_pool ⟨_, rfl, listingBody_lists _⟩ 2 _)
  ⟨h.1, h.2.2.1 0 (.raised 3) rfl rfl⟩

/-! ## Bounds on the work of the pool -/

/-- C13: from a queue loaded with `K` identifiers, for every pool size, every world and
every schedule: a worker that has been given `2 * K + 1` steps has left `run`, and
letting each worker in turn run long enough makes all of them leave `run`; at most `K`
item requests are made in all; a step at the head of the loop either ends the worker,
when the queue is empty, without any request or output, or takes one identifier off the
queue, the request coming only with the next step, which makes exactly that one request
and leaves the queue alone; and when the queue is loaded with nothing, no request is
made and nothing is written. -/
theorem bounded_work (c : IdCollection) (n : Nat) (W : World) (schedule : List Nat)
    (s : Pool) (hs : (Pool.start c n).run W schedule = s) :
    (∀ w, w < n → 2 * c.ids_.length + 1 ≤ schedule.count w →
      ∃ st, s.workers[w]? = some st ∧ st.terminated = true) ∧
      (s.run W (Pool.drain n c.ids_.length)).allTerminated = true ∧
      s.requests.length ≤ c.ids_.length ∧
      (∀ w, s.workers[w]? = some .ready →
        (s.collection.ids_ = [] →
          (s.step W w).workers[w]? = some .finished ∧ (s.step W w).requests = s.requests ∧
            (s.step W w).cout = s.cout ∧ (s.step W w).cerr = s.cerr) ∧
        (s.collection.ids_ ≠ [] →
          (s.step W w).collection.ids_.length + 1 = s.collection.ids_.length ∧
            (s.step W w).requests = s.requests ∧
            ∃ id, (s.step W w).workers[w]? = some (.holding id))) ∧
      (∀ w id, s.workers[w]? = some (.holding id) →
        (s.step W w).requests = s.requests ++ [id] ∧
          (s.step W w).collection = s.collection) ∧
      (c.ids_ = [] → s.requests = [] ∧ s.cout = [] ∧ s.cerr = []) := by
  obtain ⟨ids0⟩ := c
  have hinv := Pool.inv_run (Pool.inv_start ids0 n) W schedule
  have hlen := Pool.run_length W (Pool.start ⟨ids0⟩ n) schedule
  have hreq := Pool.requests_le hinv
  have hf := fun w => Pool.fuel_count W (Pool.start ⟨ids0⟩ n) w schedule
  rw [hs] at hinv hlen hreq hf
  have hsize : s.workers.length = n := by
    rw [hlen.1]
    simp [Pool.start]
  have hids : s.collection.ids_.length ≤ ids0.length := by
    simpa [Pool.start] using hlen.2
  refine ⟨?_, ?_, by show s.requests.length ≤ ids0.length; omega, ?_, ?_, ?_⟩
  · intro w hw hcount
    have h0 : (Pool.start ⟨ids0⟩ n).fuel w = 2 * ids0.length + 1 := by
      simp [Pool.fuel, Pool.start, List.getElem?_replicate, hw]
    have := hf w
    apply Pool.terminated_of_fuel
    · rw [hsize]
      exact hw
    · simp only at hcount
      omega
  · rw [Pool.allTerminated_iff]
    intro w hw
    rw [(Pool.run_length W _ _).1, hsize] at hw
    exact Pool.drain_terminates W ids0.length n n s (le_refl _) hsize hids w hw
  · intro w hw
    obtain ⟨h1, h2, h3, h4, h5⟩ := Pool.step_ready W s hw
    refine ⟨fun he => ⟨(h4 he).1, h1, h2, h3⟩, fun hne => ?_⟩
    obtain ⟨top, rest, hc⟩ := List.exists_cons_of_ne_nil hne
    rw [(h5 top rest hc).2.1, hc]
    exact ⟨rfl, h1, top, (h5 top rest hc).1⟩
  · intro w id hw
    obtain ⟨h1, -, h3, -⟩ := Pool.step_holding W s hw
    exact ⟨h3, h1⟩
  · intro he
    simp only at he
    subst he
    have h0 : s.requests = [] :=
      List.length_eq_zero.1 (by simp only [List.length_nil] at hreq; omega)
    have hcnt := hinv.count
    rw [h0] at hcnt
    simp only [List.length_nil] at hcnt
    have hc : s.cout = [] := List.length_eq_zero.1 (by omega)
    have hd : s.diagnosed.length = 0 := by omega
    refine ⟨h0, hc, ?_⟩
    rw [hinv.cerr_eq, hd]
    rfl

/-- Witness for C13: the empty listing with eight workers, each taking one step. -/
theorem bounded_work_witness :
    ∃ s, Application.main (World.echo []) [0, 1, 2, 3, 4, 5, 6, 7] = .returned 0 s ∧
      s.requests = [] ∧ s.cout = [] ∧ s.cerr = [] :=
  ⟨_, rfl, (bounded_work ⟨[]⟩ 8 (World.echo []) [0, 1, 2, 3, 4, 5, 6, 7] _ rfl).2.2.2.2.2 rfl⟩

end HackerNews
